import Mathlib

/-
Verification of the Akumuli compression core (compression.cpp) against its
specification. The development shallowly embeds the code: doubles are
represented by their 64-bit IEEE-754 bit patterns (the codec only ever
manipulates the raw pattern through a union), machine integers are Nat with
explicit reductions modulo 2 ^ 64 or 2 ^ 16 where overflow matters, and the
caller-supplied output buffer is a bounded byte cursor in which a write
either appends and succeeds or leaves the buffer unchanged and fails.
-/

namespace Aku

/-- Word size of one byte list element: every stream byte is below 256. -/
def U64 : Nat := 2 ^ 64

/-- Little-endian byte image of the low w bytes of x, as written by
Base128StreamWriter put_raw for a w-byte integral type (host order). -/
def toBytesLE : Nat → Nat → List Nat
  | 0, _ => []
  | w + 1, x => (x % 256) :: toBytesLE w (x / 256)

/-- Little-endian value of a byte list, the way read_raw reassembles it. -/
def fromBytesLE : List Nat → Nat
  | [] => 0
  | b :: t => b % 256 + 256 * fromBytesLE t

/-- Reads w bytes from the front of a byte stream (missing bytes read as 0,
which never happens on the paths covered by the theorems below). -/
def readBytes (w : Nat) (bs : List Nat) : Nat × List Nat :=
  (fromBytesLE (bs.take w), bs.drop w)

theorem toBytesLE_length (w x : Nat) : (toBytesLE w x).length = w := by
  induction w generalizing x with
  | zero => rfl
  | succ w ih => simp [toBytesLE, ih]

theorem toBytesLE_split (a b x : Nat) :
    toBytesLE (a + b) x = toBytesLE a x ++ toBytesLE b (x / 256 ^ a) := by
  induction a generalizing x with
  | zero => simp [toBytesLE]
  | succ a ih =>
      rw [show a + 1 + b = (a + b) + 1 from by omega]
      simp only [toBytesLE, ih, List.cons_append]
      congr 2
      rw [Nat.div_div_eq_div_mul]
      congr 1
      rw [pow_succ, Nat.mul_comm]

theorem fromBytesLE_toBytesLE (w x : Nat) :
    fromBytesLE (toBytesLE w x) = x % 256 ^ w := by
  induction w generalizing x with
  | zero => simp [toBytesLE, fromBytesLE, Nat.mod_one]
  | succ w ih =>
      simp only [toBytesLE, fromBytesLE, ih, Nat.mod_mod_of_dvd x (dvd_refl 256)]
      have h256 : (256 : Nat) ^ (w + 1) = 256 * 256 ^ w := by ring
      rw [h256, Nat.mod_mul]

theorem readBytes_exact (w x : Nat) (rest : List Nat) (hx : x < 256 ^ w) :
    readBytes w (toBytesLE w x ++ rest) = (x, rest) := by
  unfold readBytes
  rw [List.take_left' (toBytesLE_length w x), List.drop_left' (toBytesLE_length w x),
      fromBytesLE_toBytesLE, Nat.mod_eq_of_lt hx]

/-- Modelled from the spec: Base128StreamWriter (declared in the missing
compression.h) is a bounded cursor over a caller-supplied buffer; a typed
write appends the host-order bytes and succeeds, or fails leaving the cursor
where it was, when fewer bytes remain than the write needs. -/
structure BStream where
  cap : Nat
  data : List Nat

/-- Space remaining in the buffer, as space_left reports it. -/
def BStream.space_left (s : BStream) : Nat := s.cap - s.data.length

/-- One bounded write of a byte sequence: all-or-nothing at this granularity. -/
def putBytes (s : BStream) (bs : List Nat) : BStream × Bool :=
  if s.data.length + bs.length ≤ s.cap then (⟨s.cap, s.data ++ bs⟩, true) else (s, false)

/-- Fixed-width write: put_raw of a w-byte integral value in host order. -/
def putRaw (s : BStream) (w x : Nat) : BStream × Bool := putBytes s (toBytesLE w x)

/-- Modelled from the spec: Base128StreamWriter commit finalizes the session
and reports success; it moves no bytes. -/
def streamCommit (s : BStream) : BStream × Bool := (s, true)

theorem putBytes_ok {s : BStream} {bs : List Nat}
    (h : s.data.length + bs.length ≤ s.cap) :
    putBytes s bs = (⟨s.cap, s.data ++ bs⟩, true) := by
  unfold putBytes; rw [if_pos h]

theorem putBytes_cases (s : BStream) (bs : List Nat) :
    putBytes s bs = (⟨s.cap, s.data ++ bs⟩, true) ∨ putBytes s bs = (s, false) := by
  unfold putBytes; split <;> simp

theorem putRaw_ok {s : BStream} {w x : Nat} (h : s.data.length + w ≤ s.cap) :
    putRaw s w x = (⟨s.cap, s.data ++ toBytesLE w x⟩, true) :=
  putBytes_ok (by rw [toBytesLE_length]; exact h)

theorem putRaw_cases (s : BStream) (w x : Nat) :
    putRaw s w x = (⟨s.cap, s.data ++ toBytesLE w x⟩, true) ∨ putRaw s w x = (s, false) :=
  putBytes_cases s (toBytesLE w x)

/-- Modelled from the spec: the timestamp codec variable-length-encodes its
residuals; this model uses the base-128 group layout, seven payload bits per
byte, low group first, high bit of a byte flagging a continuation. -/
def varintGo : Nat → Nat → List Nat
  | 0, x => [x]
  | fuel + 1, x => if x < 128 then [x] else (x % 128 + 128) :: varintGo fuel (x / 128)

/-- Base-128 groups, seven payload bits per byte, low group first, high bit
of a byte flagging a continuation; the fuel only bounds the recursion and
the value itself always supplies enough of it. -/
def varintBytes (x : Nat) : List Nat := varintGo x x

/-- Reader for varintBytes, consuming from the front of the byte stream. -/
def readVarint : List Nat → Nat × List Nat
  | [] => (0, [])
  | b :: t =>
      if b < 128 then (b, t)
      else
        let (v, r) := readVarint t
        ((b - 128) + 128 * v, r)

theorem readVarint_varintGo : ∀ (fuel x : Nat), x ≤ fuel → ∀ rest : List Nat,
    readVarint (varintGo fuel x ++ rest) = (x, rest) := by
  intro fuel
  induction fuel with
  | zero =>
      intro x hx rest
      have hz : x = 0 := by omega
      subst hz
      simp [varintGo, readVarint]
  | succ fuel ih =>
      intro x hx rest
      unfold varintGo
      split
      · rename_i h
        simp [readVarint, h]
      · rename_i h
        have hlt : x / 128 ≤ fuel := by
          have := Nat.div_lt_self (show 0 < x by omega) (show 1 < 128 by omega)
          omega
        simp only [List.cons_append, readVarint, if_neg (by omega : ¬ x % 128 + 128 < 128)]
        rw [show ((varintGo fuel (x / 128)).append rest) =
            varintGo fuel (x / 128) ++ rest from rfl,
          ih (x / 128) hlt rest]
        simp only [Prod.mk.injEq]
        exact ⟨by omega, trivial⟩

theorem readVarint_varintBytes (x : Nat) (rest : List Nat) :
    readVarint (varintBytes x ++ rest) = (x, rest) :=
  readVarint_varintGo x x (Nat.le_refl x) rest

theorem varintGo_length_le : ∀ (k fuel x : Nat), x < 128 ^ (k + 1) →
    (varintGo fuel x).length ≤ k + 1 := by
  intro k
  induction k with
  | zero =>
      intro fuel x hx
      cases fuel with
      | zero => simp [varintGo]
      | succ fuel =>
          unfold varintGo
          rw [if_pos (by simpa using hx)]
          simp
  | succ k ih =>
      intro fuel x hx
      cases fuel with
      | zero => simp [varintGo]
      | succ fuel =>
          unfold varintGo
          split
          · simp
          · rename_i h
            have hdiv : x / 128 < 128 ^ (k + 1) := by
              rw [Nat.div_lt_iff_lt_mul (by omega)]
              calc x < 128 ^ (k + 1 + 1) := hx
                _ = 128 ^ (k + 1) * 128 := by ring
            simpa using Nat.succ_le_succ (ih fuel (x / 128) hdiv)

theorem varintBytes_length_le (k : Nat) :
    ∀ x : Nat, x < 128 ^ (k + 1) → (varintBytes x).length ≤ k + 1 :=
  fun x hx => varintGo_length_le k x x hx

theorem varintBytes_le_ten {x : Nat} (hx : x < 2 ^ 64) : (varintBytes x).length ≤ 10 := by
  exact varintBytes_length_le 9 x (by norm_num at hx ⊢; omega)

/-- Trailing-zero count of d within a w-bit word; returns w when d = 0 on
the width, mirroring builtin ctzl on a nonzero 64-bit argument when w = 64. -/
def tzw : Nat → Nat → Nat
  | 0, _ => 0
  | w + 1, d => if d % 2 = 1 then 0 else tzw w (d / 2) + 1

theorem tzw_pow_dvd (w : Nat) : ∀ d : Nat, 2 ^ tzw w d ∣ d := by
  induction w with
  | zero => intro d; simp [tzw]
  | succ w ih =>
      intro d
      unfold tzw
      split
      · simp
      · rename_i h
        have h2 : d % 2 = 0 := by omega
        have := ih (d / 2)
        rw [pow_succ]
        rcases this with ⟨c, hc⟩
        refine ⟨c, ?_⟩
        calc d = 2 * (d / 2) := by omega
          _ = 2 * (2 ^ tzw w (d / 2) * c) := by conv_lhs => rw [hc]
          _ = 2 ^ tzw w (d / 2) * 2 * c := by ring

theorem tzw_le (w d : Nat) : tzw w d ≤ w := by
  induction w generalizing d with
  | zero => simp [tzw]
  | succ w ih =>
      unfold tzw
      split
      · omega
      · exact Nat.succ_le_succ (ih (d / 2))

/-- Floor base-2 logarithm within a w-bit word, structurally on the width. -/
def lg2w : Nat → Nat → Nat
  | 0, _ => 0
  | w + 1, d => if d ≤ 1 then 0 else lg2w w (d / 2) + 1

theorem lg2w_eq_log2 : ∀ (w d : Nat), d < 2 ^ w → lg2w w d = Nat.log2 d := by
  intro w
  induction w with
  | zero =>
      intro d hd
      have hz : d = 0 := by simpa using hd
      subst hz
      rw [Nat.log2]
      simp [lg2w]
  | succ w ih =>
      intro d hd
      unfold lg2w
      split
      · rename_i h
        rw [Nat.log2]
        rw [if_neg (by omega)]
      · rename_i h
        have hdiv : d / 2 < 2 ^ w := by
          rw [Nat.div_lt_iff_lt_mul (by omega)]
          calc d < 2 ^ (w + 1) := hd
            _ = 2 ^ w * 2 := by ring
        rw [ih (d / 2) hdiv]
        conv_rhs => rw [Nat.log2]
        rw [if_pos (by omega)]

/-- Per-sample control nibble, as computed inside FcmStreamWriter put and
compress_doubles from the xor residual: three low bits hold the stored byte
count minus one, bit three marks that the high-order bytes are stored. -/
def fcmFlag (diff : Nat) : Nat :=
  let trailing := if diff = 0 then 64 else tzw 64 diff
  let leading := if diff = 0 then 64 else 63 - lg2w 64 diff
  if leading < trailing then
    let n1 := 8 - trailing / 8
    let n2 := if 0 < n1 then n1 - 1 else n1
    8 ||| (n2 &&& 7)
  else
    let n1 := 8 - leading / 8
    let n2 := if 0 < n1 then n1 - 1 else n1
    n2 &&& 7

/-- Stored byte count for a control nibble: (flag and 7) + 1. -/
def flagBytesLen (flag : Nat) : Nat := (flag &&& 7) + 1

/-- Shift applied before storing (and after loading) the residual when the
high-order-bytes bit of the control nibble is set. -/
def flagShift (flag : Nat) : Nat := (64 - flagBytesLen flag * 8) * (flag >>> 3)

/-- Byte image of one encoded residual, as encode_value lays it out. -/
def encValBytes (d flag : Nat) : List Nat :=
  toBytesLE (flagBytesLen flag) (d >>> flagShift flag)

/-- Sequence of checked fixed-width writes, stopping at the first failure,
as the fall-through switch of encode_value performs them. -/
def putUnits (s : BStream) : List (Nat × Nat) → BStream × Bool
  | [] => (s, true)
  | (w, x) :: t =>
      let r := putRaw s w x
      if r.2 then putUnits r.1 t else (r.1, false)

/-- Byte image of a unit list. -/
def unitsBytes : List (Nat × Nat) → List Nat
  | [] => []
  | (w, x) :: t => toBytesLE w x ++ unitsBytes t

/-- Total width of a unit list. -/
def unitsWidth : List (Nat × Nat) → Nat
  | [] => 0
  | (w, _) :: t => w + unitsWidth t

theorem putUnits_ok {s : BStream} {units : List (Nat × Nat)}
    (h : s.data.length + unitsWidth units ≤ s.cap) :
    putUnits s units = (⟨s.cap, s.data ++ unitsBytes units⟩, true) := by
  induction units generalizing s with
  | nil =>
      simp only [putUnits, unitsBytes, List.append_nil]
  | cons u t ih =>
      obtain ⟨w, x⟩ := u
      simp only [unitsWidth] at h
      simp only [putUnits, putRaw_ok (s := s) (w := w) (x := x) (by omega), unitsBytes]
      rw [ih (by simp [toBytesLE_length]; omega)]
      simp

/-- The write sequence of the encode_value switch, indexed by (flag and 7):
single bytes with fall-through, a 32-bit fast unit for byte counts four to
seven, one 64-bit unit for byte count eight, the residual shifted down byte
by byte exactly as the fall-through cases do. -/
def valueUnits (k diff : Nat) : List (Nat × Nat) :=
  match k with
  | 0 => [(1, diff &&& 255)]
  | 1 => [(1, diff &&& 255), (1, (diff >>> 8) &&& 255)]
  | 2 => [(1, diff &&& 255), (1, (diff >>> 8) &&& 255), (1, (diff >>> 16) &&& 255)]
  | 3 => [(4, diff &&& 4294967295)]
  | 4 => [(1, diff &&& 255), (4, (diff >>> 8) &&& 4294967295)]
  | 5 => [(1, diff &&& 255), (1, (diff >>> 8) &&& 255), (4, (diff >>> 16) &&& 4294967295)]
  | 6 => [(1, diff &&& 255), (1, (diff >>> 8) &&& 255), (1, (diff >>> 16) &&& 255),
      (4, (diff >>> 24) &&& 4294967295)]
  | _ => [(8, diff)]

/-- The switch of encode_value: the stored byte count is (flag and 7) + 1;
when the high bit of the flag is set the residual is pre-shifted right. -/
def encode_value (s : BStream) (d flag : Nat) : BStream × Bool :=
  putUnits s (valueUnits (flag &&& 7) (d >>> flagShift flag))

/-- The loop of decode_value: read (flag and 7) + 1 bytes little-endian and
shift left when the high bit of the flag is set. -/
def decode_value (flag : Nat) (bs : List Nat) : Nat × List Nat :=
  let r := readBytes (flagBytesLen flag) bs
  (r.1 <<< flagShift flag, r.2)

theorem and_255_mod (x : Nat) : x &&& 255 = x % 256 := by
  have := Nat.and_pow_two_sub_one_eq_mod x 8
  norm_num at this
  exact this

theorem and_word_mod (x : Nat) : x &&& 4294967295 = x % 4294967296 := by
  have := Nat.and_pow_two_sub_one_eq_mod x 32
  norm_num at this
  exact this

theorem valueUnits_width (k diff : Nat) (hk : k < 8) :
    unitsWidth (valueUnits k diff) = k + 1 := by
  interval_cases k <;> rfl

theorem valueUnits_bytes (k diff : Nat) (hk : k < 8) :
    unitsBytes (valueUnits k diff) = toBytesLE (k + 1) diff := by
  interval_cases k <;>
    simp [valueUnits, unitsBytes, toBytesLE, and_255_mod, and_word_mod,
      Nat.shiftRight_eq_div_pow, Nat.div_div_eq_div_mul] <;>
    omega

theorem encode_value_ok {s : BStream} (d flag : Nat)
    (h : s.data.length + flagBytesLen flag ≤ s.cap) :
    encode_value s d flag = (⟨s.cap, s.data ++ encValBytes d flag⟩, true) := by
  have h7 : flag &&& 7 < 8 := Nat.lt_succ_of_le Nat.and_le_right
  unfold flagBytesLen at h
  unfold encode_value encValBytes flagBytesLen
  rw [putUnits_ok (by rw [valueUnits_width _ _ h7]; exact h),
    valueUnits_bytes _ _ h7]

theorem and_7_mod (x : Nat) : x &&& 7 = x % 8 := by
  have := Nat.and_pow_two_sub_one_eq_mod x 3
  norm_num at this
  exact this

theorem flagBytesLen_eq (f : Nat) : flagBytesLen f = f % 8 + 1 := by
  unfold flagBytesLen; rw [and_7_mod]

theorem flagShift_eq (f : Nat) : flagShift f = (64 - (f % 8 + 1) * 8) * (f / 8) := by
  unfold flagShift flagBytesLen
  rw [and_7_mod, Nat.shiftRight_eq_div_pow]

theorem two_pow_eight_pow (k : Nat) : (256 : Nat) ^ k = 2 ^ (8 * k) := by
  rw [pow_mul]; norm_num

theorem or_eight {n : Nat} (h : n < 8) : 8 ||| n = 8 + n := by
  have h2 := (Nat.mul_add_lt_is_or (i := 3) (b := n) (by norm_num; omega) 1).symm
  norm_num at h2
  exact h2

/-- Shape of the control nibble the writer computes from a 64-bit residual:
either the low form n2 (byte count n2 + 1, no shift) or the high form
8 + n2 (byte count n2 + 1, residual shifted down), with n2 at most 7, and in
both cases the residual survives the store-and-reload untruncated. -/
theorem fcmFlag_spec (d : Nat) (hd : d < 2 ^ 64) :
    fcmFlag d < 16 ∧ 2 ^ flagShift (fcmFlag d) ∣ d ∧
      d >>> flagShift (fcmFlag d) < 256 ^ flagBytesLen (fcmFlag d) := by
  by_cases hd0 : d = 0
  · subst hd0
    exact ⟨by decide, dvd_zero _, by decide⟩
  · have htzd : 2 ^ tzw 64 d ∣ d := tzw_pow_dvd 64 d
    have htz64 : tzw 64 d ≤ 64 := tzw_le 64 d
    have htz63 : tzw 64 d ≤ 63 := by
      rcases Nat.lt_or_ge (tzw 64 d) 64 with h | h
      · omega
      · exfalso
        have h64 : tzw 64 d = 64 := by omega
        rw [h64] at htzd
        exact absurd (Nat.le_of_dvd (Nat.pos_of_ne_zero hd0) htzd) (by omega)
    have hlog : Nat.log2 d < 64 := (Nat.log2_lt hd0).mpr hd
    have hdlt : d < 2 ^ (Nat.log2 d + 1) := Nat.lt_log2_self
    have hlgeq : lg2w 64 d = Nat.log2 d := lg2w_eq_log2 64 d hd
    by_cases hb : (63 - Nat.log2 d) < tzw 64 d
    · -- high-order bytes stored
      set tz := tzw 64 d with htzdef
      have hq7 : tz / 8 ≤ 7 := by omega
      have hn1 : 0 < 8 - tz / 8 := by omega
      have hflag : fcmFlag d = 8 + (8 - tz / 8 - 1) := by
        unfold fcmFlag
        simp only [if_neg hd0, hlgeq, ← htzdef, if_pos hb, if_pos hn1]
        rw [and_7_mod, Nat.mod_eq_of_lt (by omega), or_eight (by omega)]
      have hn2 : 8 - tz / 8 - 1 ≤ 7 := by omega
      rw [hflag, flagBytesLen_eq, flagShift_eq]
      have hmod : (8 + (8 - tz / 8 - 1)) % 8 = 8 - tz / 8 - 1 := by omega
      have hdiv : (8 + (8 - tz / 8 - 1)) / 8 = 1 := by omega
      rw [hmod, hdiv, Nat.mul_one]
      have hsh : 64 - (8 - tz / 8 - 1 + 1) * 8 = 8 * (tz / 8) := by omega
      rw [hsh]
      refine ⟨by omega, ?_, ?_⟩
      · exact dvd_trans (pow_dvd_pow 2 (by omega : 8 * (tz / 8) ≤ tz)) htzd
      · rw [Nat.shiftRight_eq_div_pow,
          two_pow_eight_pow (8 - tz / 8 - 1 + 1),
          Nat.div_lt_iff_lt_mul (Nat.pos_pow_of_pos _ (by norm_num)), ← pow_add]
        exact lt_of_lt_of_le hd (Nat.pow_le_pow_right (by norm_num) (by omega))
    · -- low-order bytes stored
      set lz := 63 - Nat.log2 d with hlzdef
      have hq7 : lz / 8 ≤ 7 := by omega
      have hn1 : 0 < 8 - lz / 8 := by omega
      have hflag : fcmFlag d = 8 - lz / 8 - 1 := by
        unfold fcmFlag
        simp only [if_neg hd0, hlgeq, ← hlzdef, if_neg hb, if_pos hn1]
        rw [and_7_mod, Nat.mod_eq_of_lt (by omega)]
      rw [hflag, flagBytesLen_eq, flagShift_eq]
      have hmod : (8 - lz / 8 - 1) % 8 = 8 - lz / 8 - 1 := by omega
      have hdiv : (8 - lz / 8 - 1) / 8 = 0 := by omega
      rw [hmod, hdiv, Nat.mul_zero]
      refine ⟨by omega, one_dvd d, ?_⟩
      rw [Nat.shiftRight_eq_div_pow, pow_zero, Nat.div_one,
        two_pow_eight_pow (8 - lz / 8 - 1 + 1)]
      exact lt_of_lt_of_le hdlt (Nat.pow_le_pow_right (by norm_num) (by omega))

theorem decode_value_encValBytes {d flag : Nat} (rest : List Nat)
    (hdvd : 2 ^ flagShift flag ∣ d)
    (hlt : d >>> flagShift flag < 256 ^ flagBytesLen flag) :
    decode_value flag (encValBytes d flag ++ rest) = (d, rest) := by
  unfold decode_value encValBytes
  rw [readBytes_exact _ _ _ hlt]
  simp only [Nat.shiftLeft_eq, Nat.shiftRight_eq_div_pow]
  rw [Nat.div_mul_cancel hdvd]

/-- FcmPredictor: a table of PREDICTOR_N = 1024 64-bit entries indexed by a
rolling hash; the table is total here, with every index the constructor did
not touch holding zero, which matches the zero-filled vector. -/
structure FcmPredictor where
  table : Nat → Nat
  last_hash : Nat

/-- The freshly constructed predictor: zero table, zero hash. -/
def FcmPredictor.start : FcmPredictor := ⟨fun _ => 0, 0⟩

/-- predict_next returns the table entry under the current hash. -/
def FcmPredictor.predict_next (p : FcmPredictor) : Nat := p.table p.last_hash

/-- update stores the observed value and advances the rolling hash by
last_hash shifted left six, xor value shifted right 48, masked to the table. -/
def FcmPredictor.update (p : FcmPredictor) (value : Nat) : FcmPredictor :=
  ⟨fun i => if i = p.last_hash then value else p.table i,
    ((p.last_hash <<< 6) ^^^ (value >>> 48)) &&& 1023⟩

/-- Well-formed predictor: every table entry is a 64-bit value. -/
def PredWF (p : FcmPredictor) : Prop := ∀ i, p.table i < U64

theorem PredWF.start : PredWF FcmPredictor.start := by
  intro i; simp [FcmPredictor.start, U64]

theorem PredWF.update {p : FcmPredictor} (h : PredWF p) {v : Nat} (hv : v < U64) :
    PredWF (p.update v) := by
  intro i
  unfold FcmPredictor.update
  by_cases hi : i = p.last_hash <;> simp [hi, hv, h i]

theorem PredWF.predict_lt {p : FcmPredictor} (h : PredWF p) : p.predict_next < U64 :=
  h p.last_hash

/-- Mutable fields of FcmStreamWriter: predictor, the buffered first half of
the current pair, and the running element count. -/
structure FcmW where
  predictor : FcmPredictor
  prev_diff : Nat
  prev_flag : Nat
  nelements : Nat

/-- Writer state right after construction. -/
def FcmW.start : FcmW := ⟨FcmPredictor.start, 0, 0, 0⟩

/-- FcmStreamWriter put: predict, update, xor; buffer the residual at an even
element count, write control byte and both residuals at an odd one. A failed
write leaves the element count alone, so the failing sample is not counted. -/
def FcmStreamWriter.put (s : BStream) (w : FcmW) (value : Nat) : BStream × FcmW × Bool :=
  let predicted := w.predictor.predict_next
  let p2 := w.predictor.update value
  let diff := value ^^^ predicted
  let flag := fcmFlag diff
  if w.nelements % 2 = 0 then
    (s, ⟨p2, diff, flag, w.nelements + 1⟩, true)
  else
    let w2 : FcmW := ⟨p2, w.prev_diff, w.prev_flag, w.nelements⟩
    let r1 := putRaw s 1 ((w.prev_flag <<< 4) ||| flag)
    if r1.2 then
      let r2 := encode_value r1.1 w.prev_diff w.prev_flag
      if r2.2 then
        let r3 := encode_value r2.1 diff flag
        if r3.2 then (r3.1, ⟨p2, w.prev_diff, w.prev_flag, w.nelements + 1⟩, true)
        else (r3.1, w2, false)
      else (r2.1, w2, false)
    else (r1.1, w2, false)

/-- FcmStreamWriter commit: with an odd element count, emit the pending
half-pair padded by a zero sample, then commit the byte stream. -/
def FcmStreamWriter.commit (s : BStream) (w : FcmW) : BStream × FcmW × Bool :=
  if w.nelements % 2 = 0 then
    let r := streamCommit s
    (r.1, w, r.2)
  else
    let r1 := putRaw s 1 (w.prev_flag <<< 4)
    if r1.2 then
      let r2 := encode_value r1.1 w.prev_diff w.prev_flag
      if r2.2 then
        let r3 := encode_value r2.1 0 0
        if r3.2 then
          let r := streamCommit r3.1
          (r.1, w, r.2)
        else (r3.1, w, false)
      else (r2.1, w, false)
    else (r1.1, w, false)

/-- The put loop shared by FcmStreamWriter tput and by the tail loop of
encode_block: successive puts, stopping at the first failure. -/
def fcmPutLoop (s : BStream) (w : FcmW) : List Nat → BStream × FcmW × Bool
  | [] => (s, w, true)
  | v :: t =>
      let r := FcmStreamWriter.put s w v
      if r.2.2 then fcmPutLoop r.1 r.2.1 t else (r.1, r.2.1, false)

/-- FcmStreamWriter tput: put every batch element, then commit. -/
def FcmStreamWriter.tput (s : BStream) (w : FcmW) (values : List Nat) :
    BStream × FcmW × Bool :=
  let r := fcmPutLoop s w values
  if r.2.2 then FcmStreamWriter.commit r.1 r.2.1 else (r.1, r.2.1, false)

/-- Mutable fields of FcmStreamReader: predictor, the cached control byte
and the running element count. -/
structure FcmR where
  predictor : FcmPredictor
  flags : Nat
  iter : Nat

/-- Reader state right after construction. -/
def FcmR.start : FcmR := ⟨FcmPredictor.start, 0, 0⟩

/-- FcmStreamReader next: at an even count read the control byte and use its
high nibble, at an odd count reuse the low nibble of the cached byte; then
read the residual, xor with the prediction and update the predictor. -/
def FcmStreamReader.next (r : FcmR) (bs : List Nat) : Nat × FcmR × List Nat :=
  if r.iter % 2 = 0 then
    let rb := readBytes 1 bs
    let flag := rb.1 >>> 4
    let d := decode_value flag rb.2
    let bits := r.predictor.predict_next ^^^ d.1
    (bits, ⟨r.predictor.update bits, rb.1, r.iter + 1⟩, d.2)
  else
    let flag := r.flags &&& 15
    let d := decode_value flag bs
    let bits := r.predictor.predict_next ^^^ d.1
    (bits, ⟨r.predictor.update bits, r.flags, r.iter + 1⟩, d.2)

/-- n successive FcmStreamReader next calls. -/
def fcmReadN : Nat → FcmR → List Nat → List Nat × FcmR × List Nat
  | 0, r, bs => ([], r, bs)
  | n + 1, r, bs =>
      let x := FcmStreamReader.next r bs
      let y := fcmReadN n x.2.1 x.2.2
      (x.1 :: y.1, y.2.1, y.2.2)

/-- Predictor state after observing a list of samples. -/
def fcmPredAfter (p : FcmPredictor) (xs : List Nat) : FcmPredictor :=
  xs.foldl FcmPredictor.update p

/-- Byte image of one two-sample group as the writer emits it from predictor
state p: control byte then both residual payloads. -/
def fcmPairBytes (p : FcmPredictor) (a b : Nat) : List Nat :=
  let d1 := a ^^^ p.predict_next
  let f1 := fcmFlag d1
  let d2 := b ^^^ (p.update a).predict_next
  let f2 := fcmFlag d2
  toBytesLE 1 ((f1 <<< 4) ||| f2) ++ encValBytes d1 f1 ++ encValBytes d2 f2

/-- Byte image of the padded half-pair commit emits after an odd put count
whose pending residual was produced from predictor state p by sample a. -/
def fcmPadBytes (p : FcmPredictor) (a : Nat) : List Nat :=
  let d1 := a ^^^ p.predict_next
  let f1 := fcmFlag d1
  toBytesLE 1 (f1 <<< 4) ++ encValBytes d1 f1 ++ encValBytes 0 0

theorem encValBytes_length (d f : Nat) : (encValBytes d f).length = flagBytesLen f := by
  unfold encValBytes; rw [toBytesLE_length]

theorem flagBytesLen_le (f : Nat) : flagBytesLen f ≤ 8 := by
  rw [flagBytesLen_eq]; omega

theorem or_nibble {f1 f2 : Nat} (h2 : f2 < 16) : (f1 <<< 4) ||| f2 = 16 * f1 + f2 := by
  have h := Nat.mul_add_lt_is_or (i := 4) (b := f2) (by norm_num; omega) f1
  rw [Nat.shiftLeft_eq]
  norm_num at h ⊢
  rw [Nat.mul_comm]
  exact h.symm

theorem nibble_hi {f1 f2 : Nat} (h2 : f2 < 16) : (16 * f1 + f2) >>> 4 = f1 := by
  rw [Nat.shiftRight_eq_div_pow]
  norm_num
  omega

theorem nibble_lo {f1 f2 : Nat} (h2 : f2 < 16) : (16 * f1 + f2) &&& 15 = f2 := by
  have h := Nat.and_pow_two_sub_one_eq_mod (16 * f1 + f2) 4
  norm_num at h
  rw [h]
  omega

theorem fcm_put_even {s : BStream} {w : FcmW} {v : Nat} (h : w.nelements % 2 = 0) :
    FcmStreamWriter.put s w v =
      (s, ⟨w.predictor.update v, v ^^^ w.predictor.predict_next,
        fcmFlag (v ^^^ w.predictor.predict_next), w.nelements + 1⟩, true) := by
  unfold FcmStreamWriter.put
  rw [if_pos h]

theorem fcm_put_odd_ok {s : BStream} {w : FcmW} {v : Nat} (h : w.nelements % 2 = 1)
    (hroom : s.data.length + 17 ≤ s.cap) :
    FcmStreamWriter.put s w v =
      (⟨s.cap, s.data ++
          (toBytesLE 1 ((w.prev_flag <<< 4) ||| fcmFlag (v ^^^ w.predictor.predict_next)) ++
            encValBytes w.prev_diff w.prev_flag ++
            encValBytes (v ^^^ w.predictor.predict_next)
              (fcmFlag (v ^^^ w.predictor.predict_next)))⟩,
        ⟨w.predictor.update v, w.prev_diff, w.prev_flag, w.nelements + 1⟩, true) := by
  have h1 : s.data.length + 1 ≤ s.cap := by omega
  have hl1 := flagBytesLen_le w.prev_flag
  have hl2 := flagBytesLen_le (fcmFlag (v ^^^ w.predictor.predict_next))
  unfold FcmStreamWriter.put
  rw [if_neg (by omega)]
  simp only [putRaw_ok h1]
  rw [encode_value_ok _ _ (by simp [toBytesLE_length]; omega)]
  simp only
  rw [encode_value_ok _ _ (by simp [toBytesLE_length, encValBytes_length]; omega)]
  simp [List.append_assoc]

theorem fcm_read_pair {p : FcmPredictor} (hWF : PredWF p) {a b : Nat}
    (ha : a < U64) (hb : b < U64) (flags iter : Nat) (hit : iter % 2 = 0)
    (rest : List Nat) :
    fcmReadN 2 ⟨p, flags, iter⟩ (fcmPairBytes p a b ++ rest) =
      ([a, b], ⟨(p.update a).update b,
        16 * fcmFlag (a ^^^ p.predict_next) + fcmFlag (b ^^^ (p.update a).predict_next),
        iter + 2⟩, rest) := by
  have hd1 : a ^^^ p.predict_next < 2 ^ 64 := Nat.xor_lt_two_pow ha hWF.predict_lt
  have hd2 : b ^^^ (p.update a).predict_next < 2 ^ 64 :=
    Nat.xor_lt_two_pow hb (hWF.update ha).predict_lt
  obtain ⟨hf1, hdvd1, hlt1⟩ := fcmFlag_spec _ hd1
  obtain ⟨hf2, hdvd2, hlt2⟩ := fcmFlag_spec _ hd2
  set d1 := a ^^^ p.predict_next with hd1def
  set d2 := b ^^^ (p.update a).predict_next with hd2def
  set f1 := fcmFlag d1 with hf1def
  set f2 := fcmFlag d2 with hf2def
  have hcb : (f1 <<< 4) ||| f2 = 16 * f1 + f2 := or_nibble hf2
  have hcblt : 16 * f1 + f2 < 256 := by omega
  unfold fcmPairBytes
  simp only [fcmReadN, FcmStreamReader.next, ← hd1def, ← hd2def, ← hf1def, ← hf2def, hcb]
  rw [if_pos hit]
  simp only [List.append_assoc]
  rw [readBytes_exact 1 (16 * f1 + f2) _ (by norm_num; omega)]
  simp only [nibble_hi hf2]
  rw [decode_value_encValBytes _ hdvd1 hlt1]
  simp only
  have hbits1 : p.predict_next ^^^ d1 = a := by
    rw [hd1def, Nat.xor_comm a p.predict_next, Nat.xor_cancel_left]
  rw [hbits1]
  rw [if_neg (by omega : ¬ (iter + 1) % 2 = 0)]
  simp only [nibble_lo hf2]
  rw [decode_value_encValBytes _ hdvd2 hlt2]
  simp only
  have hbits2 : (p.update a).predict_next ^^^ d2 = b := by
    rw [hd2def, Nat.xor_comm b ((p.update a).predict_next), Nat.xor_cancel_left]
  rw [hbits2]

theorem fcmPairBytes_length_le (p : FcmPredictor) (a b : Nat) :
    (fcmPairBytes p a b).length ≤ 17 := by
  unfold fcmPairBytes
  have h1 := flagBytesLen_le (fcmFlag (a ^^^ p.predict_next))
  have h2 := flagBytesLen_le (fcmFlag (b ^^^ (p.update a).predict_next))
  simp [toBytesLE_length, encValBytes_length]
  omega

theorem fcmPredAfter_nil (p : FcmPredictor) : fcmPredAfter p [] = p := rfl

theorem fcmPredAfter_cons2 (p : FcmPredictor) (a b : Nat) (t : List Nat) :
    fcmPredAfter p (a :: b :: t) = fcmPredAfter ((p.update a).update b) t := rfl

theorem PredWF.after {p : FcmPredictor} (h : PredWF p) :
    ∀ {xs : List Nat}, (∀ x ∈ xs, x < U64) → PredWF (fcmPredAfter p xs) := by
  intro xs
  induction xs generalizing p with
  | nil => intro _; exact h
  | cons a t ih =>
      intro hx
      have ha : a < U64 := hx a (by simp)
      exact ih (h.update ha) (fun x hxm => hx x (by simp [hxm]))

theorem fcmReadN_add (m n : Nat) (r : FcmR) (bs : List Nat) :
    fcmReadN (m + n) r bs =
      ((fcmReadN m r bs).1 ++ (fcmReadN n (fcmReadN m r bs).2.1 (fcmReadN m r bs).2.2).1,
        (fcmReadN n (fcmReadN m r bs).2.1 (fcmReadN m r bs).2.2).2) := by
  induction m generalizing r bs with
  | zero => simp [fcmReadN]
  | succ m ih =>
      rw [show m + 1 + n = (m + n) + 1 from by omega]
      simp only [fcmReadN, ih]
      simp

theorem fcm_even_loop :
    ∀ (n : Nat) (xs : List Nat), xs.length = n → xs.length % 2 = 0 →
    (∀ x ∈ xs, x < U64) →
    ∀ (p : FcmPredictor), PredWF p →
    ∀ (s : BStream) (w : FcmW), w.predictor = p → w.nelements % 2 = 0 →
    s.data.length + 9 * xs.length ≤ s.cap →
    ∃ B d f, fcmPutLoop s w xs =
        (⟨s.cap, s.data ++ B⟩, ⟨fcmPredAfter p xs, d, f, w.nelements + xs.length⟩, true) ∧
      B.length ≤ 9 * xs.length ∧
      (∀ flags iter rest, iter % 2 = 0 →
        ∃ flags2, fcmReadN xs.length ⟨p, flags, iter⟩ (B ++ rest) =
          (xs, ⟨fcmPredAfter p xs, flags2, iter + xs.length⟩, rest)) := by
  intro n
  induction n using Nat.strong_induction_on with
  | _ n ih =>
    intro xs hlen h2 hx p hWF s w hwp hwn hroom
    match xs, hlen with
    | [], _ =>
        refine ⟨[], w.prev_diff, w.prev_flag, ?_, by simp, ?_⟩
        · simp [fcmPutLoop, fcmPredAfter, ← hwp]
        · intro flags iter rest _
          exact ⟨flags, by simp [fcmReadN, fcmPredAfter]⟩
    | [a], hlen => simp at h2
    | a :: b :: t, hlen =>
        have ha : a < U64 := hx a (by simp)
        have hb : b < U64 := hx b (by simp)
        have hxt : ∀ x ∈ t, x < U64 := fun x hm => hx x (by simp [hm])
        have h2t : t.length % 2 = 0 := by simp at h2; omega
        have hlt : t.length < n := by simp at hlen; omega
        have hlen2 : (a :: b :: t).length = 2 + t.length := by
          simp [List.length_cons]; omega
        have hWF2 : PredWF ((p.update a).update b) := (hWF.update ha).update hb
        -- the two puts of the pair
        have hput1 := fcm_put_even (s := s) (w := w) (v := a) hwn
        rw [hwp] at hput1
        set d1 := a ^^^ p.predict_next with hd1def
        set f1 := fcmFlag d1 with hf1def
        have hput2 := fcm_put_odd_ok
          (s := s) (w := ⟨p.update a, d1, f1, w.nelements + 1⟩) (v := b)
          (by show (w.nelements + 1) % 2 = 1; omega)
          (by show s.data.length + 17 ≤ s.cap; rw [hlen2] at hroom; omega)
        simp only at hput2
        set d2 := b ^^^ (p.update a).predict_next with hd2def
        set f2 := fcmFlag d2 with hf2def
        have hg1 := flagBytesLen_le f1
        have hg2 := flagBytesLen_le f2
        -- the rest of the list from the post-pair state
        obtain ⟨Bt, dt, ft, hloop, hblen, hread⟩ :=
          ih t.length hlt t rfl h2t hxt ((p.update a).update b) hWF2
            ⟨s.cap, s.data ++ (toBytesLE 1 ((f1 <<< 4) ||| f2) ++
              encValBytes d1 f1 ++ encValBytes d2 f2)⟩
            ⟨(p.update a).update b, d1, f1, w.nelements + 2⟩ rfl
            (by show (w.nelements + 2) % 2 = 0; omega)
            (by
              show (s.data ++ _).length + 9 * t.length ≤ s.cap
              simp only [List.length_append, toBytesLE_length, encValBytes_length]
              rw [hlen2] at hroom
              omega)
        have hGB : fcmPairBytes p a b =
            toBytesLE 1 ((f1 <<< 4) ||| f2) ++ encValBytes d1 f1 ++ encValBytes d2 f2 := by
          simp [fcmPairBytes, ← hd1def, ← hd2def, ← hf1def, ← hf2def]
        refine ⟨fcmPairBytes p a b ++ Bt, dt, ft, ?_, ?_, ?_⟩
        · show fcmPutLoop s w (a :: b :: t) = _
          simp only [fcmPutLoop, hput1]
          simp only [fcmPutLoop, hput2]
          rw [hloop]
          simp only [fcmPredAfter_cons2, hGB, hlen2, List.append_assoc, Nat.add_assoc,
            if_true]
        · rw [hGB, hlen2]
          simp only [List.length_append, toBytesLE_length, encValBytes_length]
          omega
        · intro flags iter rest hit
          have hpair := fcm_read_pair hWF ha hb flags iter hit (Bt ++ rest)
          obtain ⟨flags2, hrd⟩ := hread (16 * f1 + f2) (iter + 2) rest (by omega)
          refine ⟨flags2, ?_⟩
          rw [hlen2, fcmReadN_add, List.append_assoc, hpair]
          simp only [← hd1def, ← hd2def, ← hf1def, ← hf2def] at hrd ⊢
          rw [hrd]
          simp only [fcmPredAfter_cons2, List.cons_append, List.nil_append, Nat.add_assoc]

theorem fcm_commit_even {s : BStream} {w : FcmW} (h : w.nelements % 2 = 0) :
    FcmStreamWriter.commit s w = (s, w, true) := by
  unfold FcmStreamWriter.commit
  rw [if_pos h]
  rfl

theorem fcm_commit_odd_ok {s : BStream} {w : FcmW} (h : w.nelements % 2 = 1)
    (hroom : s.data.length + 10 ≤ s.cap) :
    FcmStreamWriter.commit s w =
      (⟨s.cap, s.data ++ (toBytesLE 1 (w.prev_flag <<< 4) ++
        encValBytes w.prev_diff w.prev_flag ++ encValBytes 0 0)⟩, w, true) := by
  have hl1 := flagBytesLen_le w.prev_flag
  unfold FcmStreamWriter.commit
  rw [if_neg (by omega)]
  simp only [putRaw_ok (show s.data.length + 1 ≤ s.cap from by omega)]
  rw [encode_value_ok _ _ (by simp [toBytesLE_length]; omega)]
  simp only
  rw [encode_value_ok _ _ (by
    simp only [List.length_append, toBytesLE_length, encValBytes_length]
    show _ + flagBytesLen 0 ≤ _
    rw [show flagBytesLen 0 = 1 from by decide]
    omega)]
  simp [streamCommit, List.append_assoc]

theorem fcm_read_pad {p : FcmPredictor} (hWF : PredWF p) {a : Nat} (ha : a < U64)
    (flags iter : Nat) (hit : iter % 2 = 0) (rest : List Nat) :
    fcmReadN 1 ⟨p, flags, iter⟩ (fcmPadBytes p a ++ rest) =
      ([a], ⟨p.update a, 16 * fcmFlag (a ^^^ p.predict_next), iter + 1⟩,
        encValBytes 0 0 ++ rest) := by
  have hd1 : a ^^^ p.predict_next < 2 ^ 64 := Nat.xor_lt_two_pow ha hWF.predict_lt
  obtain ⟨hf1, hdvd1, hlt1⟩ := fcmFlag_spec _ hd1
  set d1 := a ^^^ p.predict_next with hd1def
  set f1 := fcmFlag d1 with hf1def
  have hcb : f1 <<< 4 = 16 * f1 + 0 := by
    rw [show f1 <<< 4 = (f1 <<< 4) ||| 0 from by simp, or_nibble (by norm_num)]
  unfold fcmPadBytes
  simp only [fcmReadN, FcmStreamReader.next, ← hd1def, ← hf1def, hcb]
  rw [if_pos hit]
  simp only [List.append_assoc]
  rw [readBytes_exact 1 (16 * f1 + 0) _ (by norm_num; omega)]
  simp only [nibble_hi (by norm_num : (0 : Nat) < 16)]
  rw [decode_value_encValBytes _ hdvd1 hlt1]
  simp only
  have hbits1 : p.predict_next ^^^ d1 = a := by
    rw [hd1def, Nat.xor_comm a p.predict_next, Nat.xor_cancel_left]
  rw [hbits1]
  norm_num

theorem fcmPutLoop_append (l1 l2 : List Nat) (s : BStream) (w : FcmW) :
    fcmPutLoop s w (l1 ++ l2) =
      (if (fcmPutLoop s w l1).2.2 then
        fcmPutLoop (fcmPutLoop s w l1).1 (fcmPutLoop s w l1).2.1 l2
      else fcmPutLoop s w l1) := by
  induction l1 generalizing s w with
  | nil => simp [fcmPutLoop]
  | cons a t ih =>
      simp only [List.cons_append, fcmPutLoop]
      by_cases hok : (FcmStreamWriter.put s w a).2.2
      · simp only [if_pos hok]
        exact ih _ _
      · simp only [if_neg hok]
        simp [hok]

theorem fcm_tput_even (xs : List Nat) (h2 : xs.length % 2 = 0)
    (hx : ∀ x ∈ xs, x < U64) (p : FcmPredictor) (hWF : PredWF p)
    (s : BStream) (w : FcmW) (hwp : w.predictor = p) (hwn : w.nelements % 2 = 0)
    (hroom : s.data.length + 9 * xs.length ≤ s.cap) :
    ∃ B d f, FcmStreamWriter.tput s w xs =
        (⟨s.cap, s.data ++ B⟩, ⟨fcmPredAfter p xs, d, f, w.nelements + xs.length⟩, true) ∧
      B.length ≤ 9 * xs.length ∧
      (∀ flags iter rest, iter % 2 = 0 →
        ∃ flags2, fcmReadN xs.length ⟨p, flags, iter⟩ (B ++ rest) =
          (xs, ⟨fcmPredAfter p xs, flags2, iter + xs.length⟩, rest)) := by
  obtain ⟨B, d, f, hloop, hlen, hread⟩ :=
    fcm_even_loop xs.length xs rfl h2 hx p hWF s w hwp hwn hroom
  refine ⟨B, d, f, ?_, hlen, hread⟩
  unfold FcmStreamWriter.tput
  rw [hloop]
  simp only [if_true]
  rw [fcm_commit_even (by show (w.nelements + xs.length) % 2 = 0; omega)]

theorem fcm_tail_block (xs : List Nat) (hx : ∀ x ∈ xs, x < U64)
    (p : FcmPredictor) (hWF : PredWF p) (s : BStream) (w : FcmW)
    (hwp : w.predictor = p) (hwn : w.nelements % 2 = 0)
    (hroom : s.data.length + (9 * xs.length + 10) ≤ s.cap) :
    ∃ B C w2, (fcmPutLoop s w xs).2.2 = true ∧
      FcmStreamWriter.commit (fcmPutLoop s w xs).1 (fcmPutLoop s w xs).2.1 =
        (⟨s.cap, s.data ++ B⟩, w2, true) ∧
      B.length ≤ 9 * xs.length + 10 ∧
      (∀ flags iter rest, iter % 2 = 0 →
        ∃ flags2, fcmReadN xs.length ⟨p, flags, iter⟩ (B ++ rest) =
          (xs, ⟨fcmPredAfter p xs, flags2, iter + xs.length⟩, C ++ rest)) := by
  by_cases hpar : xs.length % 2 = 0
  · obtain ⟨B, d, f, hloop, hlen, hread⟩ :=
      fcm_even_loop xs.length xs rfl hpar hx p hWF s w hwp hwn (by omega)
    refine ⟨B, [], ⟨fcmPredAfter p xs, d, f, w.nelements + xs.length⟩, ?_, ?_, by omega, ?_⟩
    · rw [hloop]
    · rw [hloop]
      simp only
      rw [fcm_commit_even (by show (w.nelements + xs.length) % 2 = 0; omega)]
    · intro flags iter rest hit
      obtain ⟨flags2, hrd⟩ := hread flags iter rest hit
      exact ⟨flags2, by simpa using hrd⟩
  · -- odd tail: the last sample is padded out by commit
    rcases List.eq_nil_or_concat xs with hnil | ⟨ys, a, hconc⟩
    · subst hnil; simp at hpar
    · subst hconc
      have hys2 : ys.length % 2 = 0 := by simp at hpar; omega
      have hysx : ∀ x ∈ ys, x < U64 := fun x hm => hx x (by simp [hm])
      have ha : a < U64 := hx a (by simp)
      obtain ⟨B, d, f, hloop, hlen, hread⟩ :=
        fcm_even_loop ys.length ys rfl hys2 hysx p hWF s w hwp hwn
          (by simp at hroom; omega)
      have hWFy : PredWF (fcmPredAfter p ys) := hWF.after hysx
      have hputa := fcm_put_even
        (s := ⟨s.cap, s.data ++ B⟩)
        (w := ⟨fcmPredAfter p ys, d, f, w.nelements + ys.length⟩) (v := a)
        (by show (w.nelements + ys.length) % 2 = 0; omega)
      have hcommit := fcm_commit_odd_ok
        (s := ⟨s.cap, s.data ++ B⟩)
        (w := ⟨(fcmPredAfter p ys).update a, a ^^^ (fcmPredAfter p ys).predict_next,
          fcmFlag (a ^^^ (fcmPredAfter p ys).predict_next), w.nelements + ys.length + 1⟩)
        (by show (w.nelements + ys.length + 1) % 2 = 1; omega)
        (by simp only [List.length_append]; simp at hroom; omega)
      rw [show ys.concat a = ys ++ [a] from List.concat_eq_append ys a] at *
      refine ⟨B ++ fcmPadBytes (fcmPredAfter p ys) a, encValBytes 0 0,
        ⟨(fcmPredAfter p ys).update a, a ^^^ (fcmPredAfter p ys).predict_next,
          fcmFlag (a ^^^ (fcmPredAfter p ys).predict_next), w.nelements + ys.length + 1⟩,
        ?_, ?_, ?_, ?_⟩
      · rw [fcmPutLoop_append, hloop]
        simp only [if_true, fcmPutLoop, hputa]
      · rw [fcmPutLoop_append, hloop]
        simp only [if_true, fcmPutLoop, hputa]
        simp only at hcommit ⊢
        rw [hcommit]
        simp [fcmPadBytes, List.append_assoc]
      · have : (fcmPadBytes (fcmPredAfter p ys) a).length ≤ 10 := by
          unfold fcmPadBytes
          have h1 := flagBytesLen_le (fcmFlag (a ^^^ (fcmPredAfter p ys).predict_next))
          simp only [List.length_append, toBytesLE_length, encValBytes_length]
          rw [flagBytesLen_eq 0]
          omega
        simp only [List.length_append]
        simp at hlen ⊢
        omega
      · intro flags iter rest hit
        obtain ⟨flags2, hrd⟩ := hread flags iter (fcmPadBytes (fcmPredAfter p ys) a ++ rest) hit
        have hpad := fcm_read_pad hWFy ha flags2 (iter + ys.length)
          (by omega) rest
        refine ⟨16 * fcmFlag (a ^^^ (fcmPredAfter p ys).predict_next), ?_⟩
        rw [show (ys ++ [a]).length = ys.length + 1 from by simp,
          fcmReadN_add, List.append_assoc, hrd]
        simp only
        rw [hpad]
        simp [fcmPredAfter, List.foldl_append, Nat.add_assoc]

/-- The loop of compress_doubles: the same residual arithmetic as
FcmStreamWriter put, but the outcome of every write is discarded and the
loop always continues on the advanced stream. -/
def cdLoop : List Nat → Nat → BStream → FcmPredictor → Nat → Nat →
    BStream × FcmPredictor × Nat × Nat
  | [], _, s, p, pd, pf => (s, p, pd, pf)
  | x :: t, ix, s, p, pd, pf =>
      let predicted := p.predict_next
      let p2 := p.update x
      let diff := x ^^^ predicted
      let flag := fcmFlag diff
      if ix % 2 = 0 then
        cdLoop t (ix + 1) s p2 diff flag
      else
        let r1 := putRaw s 1 ((pf <<< 4) ||| flag)
        let r2 := encode_value r1.1 pd pf
        let r3 := encode_value r2.1 diff flag
        cdLoop t (ix + 1) r3.1 p2 pd pf

/-- CompressionUtil compress_doubles: pairwise FCM encoding of the 64-bit
patterns with write results ignored, an odd count padded out by a zero
sample, the element count returned to the caller. -/
def compress_doubles (input : List Nat) (s : BStream) : BStream × Nat :=
  let r := cdLoop input 0 s FcmPredictor.start 0 0
  let s2 :=
    if input.length % 2 ≠ 0 then
      let r1 := putRaw r.1 1 (r.2.2.2 <<< 4)
      let r2 := encode_value r1.1 r.2.2.1 r.2.2.2
      let r3 := encode_value r2.1 0 0
      r3.1
    else r.1
  (s2, input.length)

/-- The loop of decompress_doubles: at an even index read a control byte and
take its high nibble, at an odd index reuse the low nibble of the cached
byte; decode the residual, xor with the prediction, update the predictor. -/
def ddLoop : Nat → Nat → FcmPredictor → Nat → List Nat → List Nat
  | 0, _, _, _, _ => []
  | k + 1, i, p, flags, bs =>
      if i % 2 = 0 then
        let rb := readBytes 1 bs
        let d := decode_value (rb.1 >>> 4) rb.2
        let bits := p.predict_next ^^^ d.1
        bits :: ddLoop k (i + 1) (p.update bits) rb.1 d.2
      else
        let d := decode_value (flags &&& 15) bs
        let bits := p.predict_next ^^^ d.1
        bits :: ddLoop k (i + 1) (p.update bits) flags d.2

/-- CompressionUtil decompress_doubles into an output buffer sized to
numvalues elements. -/
def decompress_doubles (numvalues : Nat) (bs : List Nat) : List Nat :=
  ddLoop numvalues 0 FcmPredictor.start 0 bs

theorem ddLoop_eq_fcmReadN (k : Nat) :
    ∀ (i : Nat) (p : FcmPredictor) (flags : Nat) (bs : List Nat),
      ddLoop k i p flags bs = (fcmReadN k ⟨p, flags, i⟩ bs).1 := by
  induction k with
  | zero => intro i p flags bs; rfl
  | succ k ih =>
      intro i p flags bs
      by_cases hi : i % 2 = 0
      · simp only [ddLoop, fcmReadN, FcmStreamReader.next, if_pos hi, ih]
      · simp only [ddLoop, fcmReadN, FcmStreamReader.next, if_neg hi, ih]

theorem cdLoop_append : ∀ (l1 l2 : List Nat) (ix : Nat) (s : BStream)
    (p : FcmPredictor) (pd pf : Nat),
    cdLoop (l1 ++ l2) ix s p pd pf =
      cdLoop l2 (ix + l1.length) (cdLoop l1 ix s p pd pf).1
        (cdLoop l1 ix s p pd pf).2.1 (cdLoop l1 ix s p pd pf).2.2.1
        (cdLoop l1 ix s p pd pf).2.2.2 := by
  intro l1
  induction l1 with
  | nil => intro l2 ix s p pd pf; simp [cdLoop]
  | cons x t ih =>
      intro l2 ix s p pd pf
      simp only [List.cons_append, cdLoop, List.length_cons]
      by_cases hix : ix % 2 = 0
      · simp only [if_pos hix]
        rw [show ix + (t.length + 1) = ix + 1 + t.length from by omega]
        exact ih _ _ _ _ _ _
      · simp only [if_neg hix]
        rw [show ix + (t.length + 1) = ix + 1 + t.length from by omega]
        exact ih _ _ _ _ _ _

theorem cd_even_loop :
    ∀ (n : Nat) (xs : List Nat), xs.length = n → xs.length % 2 = 0 →
    (∀ x ∈ xs, x < U64) →
    ∀ (p : FcmPredictor), PredWF p →
    ∀ (s : BStream) (ix pd pf : Nat), ix % 2 = 0 →
    s.data.length + 9 * xs.length ≤ s.cap →
    ∃ B d f, cdLoop xs ix s p pd pf =
        (⟨s.cap, s.data ++ B⟩, fcmPredAfter p xs, d, f) ∧
      B.length ≤ 9 * xs.length ∧
      (∀ flags iter rest, iter % 2 = 0 →
        ∃ flags2, fcmReadN xs.length ⟨p, flags, iter⟩ (B ++ rest) =
          (xs, ⟨fcmPredAfter p xs, flags2, iter + xs.length⟩, rest)) := by
  intro n
  induction n using Nat.strong_induction_on with
  | _ n ih =>
    intro xs hlen h2 hx p hWF s ix pd pf hix hroom
    match xs, hlen with
    | [], _ =>
        refine ⟨[], pd, pf, by simp [cdLoop, fcmPredAfter], by simp, ?_⟩
        intro flags iter rest _
        exact ⟨flags, by simp [fcmReadN, fcmPredAfter]⟩
    | [a], hlen => simp at h2
    | a :: b :: t, hlen =>
        have ha : a < U64 := hx a (by simp)
        have hb : b < U64 := hx b (by simp)
        have hxt : ∀ x ∈ t, x < U64 := fun x hm => hx x (by simp [hm])
        have h2t : t.length % 2 = 0 := by simp at h2; omega
        have hlt : t.length < n := by simp at hlen; omega
        have hlen2 : (a :: b :: t).length = 2 + t.length := by
          simp [List.length_cons]; omega
        have hWF2 : PredWF ((p.update a).update b) := (hWF.update ha).update hb
        set d1 := a ^^^ p.predict_next with hd1def
        set f1 := fcmFlag d1 with hf1def
        set d2 := b ^^^ (p.update a).predict_next with hd2def
        set f2 := fcmFlag d2 with hf2def
        have hg1 := flagBytesLen_le f1
        have hg2 := flagBytesLen_le f2
        have hstep : cdLoop (a :: b :: t) ix s p pd pf =
            cdLoop t (ix + 2) ⟨s.cap, s.data ++ (toBytesLE 1 ((f1 <<< 4) ||| f2) ++
              encValBytes d1 f1 ++ encValBytes d2 f2)⟩ ((p.update a).update b) d1 f1 := by
          simp only [cdLoop, if_pos hix]
          rw [if_neg (by omega : ¬ (ix + 1) % 2 = 0)]
          simp only [← hd1def, ← hf1def, ← hd2def, ← hf2def]
          rw [putRaw_ok (show s.data.length + 1 ≤ s.cap from by
            rw [hlen2] at hroom; omega)]
          rw [encode_value_ok
            (s := ⟨s.cap, s.data ++ toBytesLE 1 ((f1 <<< 4) ||| f2)⟩) d1 f1
            (by
              simp only [List.length_append, toBytesLE_length]
              rw [hlen2] at hroom; omega)]
          rw [encode_value_ok
            (s := ⟨s.cap, s.data ++ toBytesLE 1 ((f1 <<< 4) ||| f2) ++
              encValBytes d1 f1⟩) d2 f2
            (by
              simp only [List.length_append, toBytesLE_length, encValBytes_length]
              rw [hlen2] at hroom; omega)]
          rw [show ix + 1 + 1 = ix + 2 from by omega]
          simp [List.append_assoc]
        obtain ⟨Bt, dt, ft, hloop, hblen, hread⟩ :=
          ih t.length hlt t rfl h2t hxt ((p.update a).update b) hWF2
            ⟨s.cap, s.data ++ (toBytesLE 1 ((f1 <<< 4) ||| f2) ++
              encValBytes d1 f1 ++ encValBytes d2 f2)⟩
            (ix + 2) d1 f1 (by omega)
            (by
              show (s.data ++ _).length + 9 * t.length ≤ s.cap
              simp only [List.length_append, toBytesLE_length, encValBytes_length]
              rw [hlen2] at hroom
              omega)
        have hGB : fcmPairBytes p a b =
            toBytesLE 1 ((f1 <<< 4) ||| f2) ++ encValBytes d1 f1 ++ encValBytes d2 f2 := by
          simp [fcmPairBytes, ← hd1def, ← hd2def, ← hf1def, ← hf2def]
        refine ⟨fcmPairBytes p a b ++ Bt, dt, ft, ?_, ?_, ?_⟩
        · rw [hstep, hloop]
          simp only [fcmPredAfter_cons2, hGB, List.append_assoc]
        · rw [hGB, hlen2]
          simp only [List.length_append, toBytesLE_length, encValBytes_length]
          omega
        · intro flags iter rest hit
          have hpair := fcm_read_pair hWF ha hb flags iter hit (Bt ++ rest)
          obtain ⟨flags2, hrd⟩ := hread (16 * f1 + f2) (iter + 2) rest (by omega)
          refine ⟨flags2, ?_⟩
          rw [hlen2, fcmReadN_add, List.append_assoc, hpair]
          simp only [← hd1def, ← hd2def, ← hf1def, ← hf2def] at hrd ⊢
          rw [hrd]
          simp only [fcmPredAfter_cons2, List.cons_append, List.nil_append, Nat.add_assoc]

theorem compress_doubles_roundtrip (input : List Nat) (s : BStream)
    (hx : ∀ x ∈ input, x < U64)
    (hroom : s.data.length + (9 * input.length + 10) ≤ s.cap) :
    ∃ B, (compress_doubles input s).1 = ⟨s.cap, s.data ++ B⟩ ∧
      (compress_doubles input s).2 = input.length ∧
      ∀ rest, ddLoop input.length 0 FcmPredictor.start 0 (B ++ rest) = input := by
  by_cases hpar : input.length % 2 = 0
  · obtain ⟨B, d, f, hloop, hblen, hread⟩ :=
      cd_even_loop input.length input rfl hpar hx FcmPredictor.start PredWF.start
        s 0 0 0 (by omega) (by omega)
    refine ⟨B, ?_, rfl, ?_⟩
    · show (compress_doubles input s).1 = _
      unfold compress_doubles
      rw [hloop]
      simp [hpar]
    · intro rest
      obtain ⟨flags2, hrd⟩ := hread 0 0 rest rfl
      rw [ddLoop_eq_fcmReadN, hrd]
  · rcases List.eq_nil_or_concat input with hnil | ⟨ys, a, hconc⟩
    · subst hnil; simp at hpar
    · subst hconc
      rw [show ys.concat a = ys ++ [a] from List.concat_eq_append ys a] at *
      have hys2 : ys.length % 2 = 0 := by simp at hpar; omega
      have hysx : ∀ x ∈ ys, x < U64 := fun x hm => hx x (by simp [hm])
      have ha : a < U64 := hx a (by simp)
      obtain ⟨B, d, f, hloop, hblen, hread⟩ :=
        cd_even_loop ys.length ys rfl hys2 hysx FcmPredictor.start PredWF.start
          s 0 0 0 (by omega) (by simp at hroom; omega)
      have hWFy : PredWF (fcmPredAfter FcmPredictor.start ys) :=
        PredWF.start.after hysx
      set py := fcmPredAfter FcmPredictor.start ys with hpydef
      set d1 := a ^^^ py.predict_next with hd1def
      set f1 := fcmFlag d1 with hf1def
      have hg1 := flagBytesLen_le f1
      have hg0 : flagBytesLen 0 = 1 := by decide
      have hlast : cdLoop (ys ++ [a]) 0 s FcmPredictor.start 0 0 =
          (⟨s.cap, s.data ++ B⟩, py.update a, d1, f1) := by
        rw [cdLoop_append, hloop]
        simp only [cdLoop, Nat.zero_add]
        rw [if_pos hys2]
      have hcd : compress_doubles (ys ++ [a]) s =
          (⟨s.cap, s.data ++ (B ++ fcmPadBytes py a)⟩, (ys ++ [a]).length) := by
        unfold compress_doubles
        rw [hlast]
        simp only []
        rw [if_pos hpar]
        rw [putRaw_ok (show (s.data ++ B).length + 1 ≤ s.cap from by
          simp only [List.length_append]; simp at hroom hblen ⊢; omega)]
        rw [encode_value_ok
          (s := ⟨s.cap, (s.data ++ B) ++ toBytesLE 1 (f1 <<< 4)⟩) d1 f1
          (by
            simp only [List.length_append, toBytesLE_length]
            simp at hroom hblen ⊢; omega)]
        rw [encode_value_ok
          (s := ⟨s.cap, (s.data ++ B) ++ toBytesLE 1 (f1 <<< 4) ++
            encValBytes d1 f1⟩) 0 0
          (by
            simp only [List.length_append, toBytesLE_length, encValBytes_length, hg0]
            simp at hroom hblen ⊢; omega)]
        simp only [fcmPadBytes, ← hpydef, ← hd1def, ← hf1def]
        simp [List.append_assoc]
      refine ⟨B ++ fcmPadBytes py a, by rw [hcd], by rw [hcd], ?_⟩
      intro rest
      obtain ⟨flags2, hrd⟩ := hread 0 0 (fcmPadBytes py a ++ rest) rfl
      have hpad := fcm_read_pad hWFy ha flags2 (0 + ys.length) (by omega) rest
      rw [ddLoop_eq_fcmReadN,
        show (ys ++ [a]).length = ys.length + 1 from by simp,
        fcmReadN_add, List.append_assoc, hrd]
      simp only [← hpydef] at hpad ⊢
      rw [hpad]

/-- Wrapping 64-bit difference value minus previous, as uint64 arithmetic
computes it. -/
def sub64 (a b : Nat) : Nat := (a + U64 - b % U64) % U64

/-- Wrapping 64-bit addition. -/
def add64 (a b : Nat) : Nat := (a + b) % U64

theorem add64_sub64 {prev ts : Nat} (hp : prev < U64) (ht : ts < U64) :
    add64 prev (sub64 ts prev) = ts := by
  unfold add64 sub64 U64 at *
  omega

theorem sub64_lt (a b : Nat) : sub64 a b < U64 := by
  unfold sub64 U64
  omega

theorem add64_lt (a b : Nat) : add64 a b < U64 := by
  unfold add64 U64
  omega

/-- Modelled from the spec: DeltaRLEWriter state. The codec delta-encodes
each timestamp against the previous one, collapses a run of equal deltas,
and emits a finished run as two varint fields, run length then delta. -/
structure DRW where
  prev : Nat
  runLen : Nat
  runDelta : Nat

/-- Writer state right after construction. -/
def DRW.start : DRW := ⟨0, 0, 0⟩

/-- Modelled from the spec: emit the pending run, if any, as two varints. -/
def DeltaRLEWriter.flushRun (s : BStream) (w : DRW) : BStream × DRW × Bool :=
  if w.runLen = 0 then (s, w, true)
  else
    let r := putBytes s (varintBytes w.runLen ++ varintBytes w.runDelta)
    if r.2 then (r.1, ⟨w.prev, 0, w.runDelta⟩, true) else (r.1, w, false)

/-- Modelled from the spec: DeltaRLEWriter put. The delta against the
previous timestamp either extends the pending run or flushes it and starts
a fresh one. -/
def DeltaRLEWriter.put (s : BStream) (w : DRW) (ts : Nat) : BStream × DRW × Bool :=
  let delta := sub64 ts w.prev
  if w.runLen ≠ 0 ∧ delta = w.runDelta then
    (s, ⟨ts, w.runLen + 1, w.runDelta⟩, true)
  else
    let r := DeltaRLEWriter.flushRun s w
    if r.2.2 then (r.1, ⟨ts, 1, delta⟩, true) else (r.1, r.2.1, false)

/-- Modelled from the spec: DeltaRLEWriter commit flushes the pending run
and commits the byte stream. -/
def DeltaRLEWriter.commit (s : BStream) (w : DRW) : BStream × DRW × Bool :=
  let r := DeltaRLEWriter.flushRun s w
  if r.2.2 then
    let rc := streamCommit r.1
    (rc.1, r.2.1, rc.2)
  else (r.1, r.2.1, false)

/-- The put loop shared by DeltaRLEWriter tput and the tail loop of
encode_block: successive puts, stopping at the first failure. -/
def drwPutLoop (s : BStream) (w : DRW) : List Nat → BStream × DRW × Bool
  | [] => (s, w, true)
  | v :: t =>
      let r := DeltaRLEWriter.put s w v
      if r.2.2 then drwPutLoop r.1 r.2.1 t else (r.1, r.2.1, false)

/-- Modelled from the spec: DeltaRLEWriter tput puts the batch then commits. -/
def DeltaRLEWriter.tput (s : BStream) (w : DRW) (values : List Nat) :
    BStream × DRW × Bool :=
  let r := drwPutLoop s w values
  if r.2.2 then DeltaRLEWriter.commit r.1 r.2.1 else (r.1, r.2.1, false)

/-- Modelled from the spec: DeltaRLEReader state. -/
structure DRR where
  prev : Nat
  runLen : Nat
  runDelta : Nat

/-- Reader state right after construction. -/
def DRR.start : DRR := ⟨0, 0, 0⟩

/-- Modelled from the spec: DeltaRLEReader next. With no run pending, read a
run header, run length then delta; in both cases produce previous plus delta. -/
def DeltaRLEReader.next (r : DRR) (bs : List Nat) : Nat × DRR × List Nat :=
  if r.runLen = 0 then
    let v1 := readVarint bs
    let v2 := readVarint v1.2
    let v := add64 r.prev v2.1
    (v, ⟨v, v1.1 - 1, v2.1⟩, v2.2)
  else
    let v := add64 r.prev r.runDelta
    (v, ⟨v, r.runLen - 1, r.runDelta⟩, bs)

/-- n successive DeltaRLEReader next calls. -/
def drReadN : Nat → DRR → List Nat → List Nat × DRR × List Nat
  | 0, r, bs => ([], r, bs)
  | n + 1, r, bs =>
      let x := DeltaRLEReader.next r bs
      let y := drReadN n x.2.1 x.2.2
      (x.1 :: y.1, y.2.1, y.2.2)

/-- The value reached after k wrapping additions of delta. -/
def stepN (prev delta : Nat) : Nat → Nat
  | 0 => prev
  | k + 1 => stepN (add64 prev delta) delta k

/-- The k values of one run, starting above prev with common delta. -/
def runFrom (prev delta : Nat) : Nat → List Nat
  | 0 => []
  | k + 1 => add64 prev delta :: runFrom (add64 prev delta) delta k

theorem stepN_succ_last (prev delta k : Nat) :
    stepN prev delta (k + 1) = add64 (stepN prev delta k) delta := by
  induction k generalizing prev with
  | zero => rfl
  | succ k ih =>
      show stepN (add64 prev delta) delta (k + 1) = _
      rw [ih]
      rfl

theorem runFrom_succ (prev delta k : Nat) :
    runFrom prev delta (k + 1) = runFrom prev delta k ++ [stepN prev delta (k + 1)] := by
  induction k generalizing prev with
  | zero => rfl
  | succ k ih =>
      show add64 prev delta :: runFrom (add64 prev delta) delta (k + 1) = _
      rw [ih]
      rfl

theorem runFrom_length (prev delta k : Nat) : (runFrom prev delta k).length = k := by
  induction k generalizing prev with
  | zero => rfl
  | succ k ih => simp [runFrom, ih]

theorem runFrom_getLastD (prev delta k d : Nat) (hk : 1 ≤ k) :
    (runFrom prev delta k).getLastD d = stepN prev delta k := by
  induction k generalizing prev d with
  | zero => omega
  | succ k ih =>
      rcases Nat.eq_zero_or_pos k with hk0 | hkpos
      · subst hk0; rfl
      · show (add64 prev delta :: runFrom (add64 prev delta) delta k).getLastD d = _
        rw [List.getLastD_cons, ih _ _ hkpos]
        rfl

theorem drReadN_add (m n : Nat) (r : DRR) (bs : List Nat) :
    drReadN (m + n) r bs =
      ((drReadN m r bs).1 ++ (drReadN n (drReadN m r bs).2.1 (drReadN m r bs).2.2).1,
        (drReadN n (drReadN m r bs).2.1 (drReadN m r bs).2.2).2) := by
  induction m generalizing r bs with
  | zero => simp [drReadN]
  | succ m ih =>
      rw [show m + 1 + n = (m + n) + 1 from by omega]
      simp only [drReadN, ih]
      simp

theorem drReadN_inrun (k : Nat) :
    ∀ (prev delta : Nat) (bs : List Nat),
    drReadN k ⟨prev, k, delta⟩ bs =
      (runFrom prev delta k, ⟨stepN prev delta k, 0, delta⟩, bs) := by
  induction k with
  | zero => intro prev delta bs; rfl
  | succ k ih =>
      intro prev delta bs
      simp only [drReadN, DeltaRLEReader.next, if_neg (by omega : ¬ k + 1 = 0)]
      simp only [Nat.add_sub_cancel, ih]
      rfl

theorem drReadN_freshRun (k : Nat) (hk : 1 ≤ k) (prev delta dr : Nat)
    (rest : List Nat) :
    drReadN k ⟨prev, 0, dr⟩ (varintBytes k ++ varintBytes delta ++ rest) =
      (runFrom prev delta k, ⟨stepN prev delta k, 0, delta⟩, rest) := by
  match k, hk with
  | k + 1, _ =>
      simp only [drReadN, DeltaRLEReader.next, List.append_assoc, readVarint_varintBytes,
        if_pos rfl, if_true, Nat.add_sub_cancel]
      rw [drReadN_inrun]
      rfl

theorem stepN_lt {prev : Nat} (hp : prev < U64) (delta k : Nat) :
    stepN prev delta k < U64 := by
  induction k generalizing prev with
  | zero => exact hp
  | succ k ih => exact ih (add64_lt prev delta)

theorem varint_pair_le {a b : Nat} (ha : a < U64) (hb : b < U64) :
    (varintBytes a ++ varintBytes b).length ≤ 20 := by
  have h1 := varintBytes_le_ten (show a < 2 ^ 64 from ha)
  have h2 := varintBytes_le_ten (show b < 2 ^ 64 from hb)
  simp only [List.length_append]
  omega

theorem drw_pending :
    ∀ (n : Nat) (xs : List Nat), xs.length = n →
    (∀ x ∈ xs, x < U64) →
    ∀ (s : BStream) (prevR δ k : Nat), 1 ≤ k → prevR < U64 → k + xs.length < U64 →
    δ < U64 →
    s.data.length + (20 * xs.length + 20) ≤ s.cap →
    ∃ B dW dE,
      (drwPutLoop s ⟨stepN prevR δ k, k, δ⟩ xs).2.2 = true ∧
      DeltaRLEWriter.commit (drwPutLoop s ⟨stepN prevR δ k, k, δ⟩ xs).1
          (drwPutLoop s ⟨stepN prevR δ k, k, δ⟩ xs).2.1 =
        (⟨s.cap, s.data ++ B⟩, ⟨xs.getLastD (stepN prevR δ k), 0, dW⟩, true) ∧
      B.length ≤ 20 * xs.length + 20 ∧
      ∀ rest dr, drReadN (k + xs.length) ⟨prevR, 0, dr⟩ (B ++ rest) =
        (runFrom prevR δ k ++ xs, ⟨xs.getLastD (stepN prevR δ k), 0, dE⟩, rest) := by
  intro n
  induction n using Nat.strong_induction_on with
  | _ n ih =>
    intro xs hlen hx s prevR δ k hk hpR hbound hδ hroom
    have hkU : k < U64 := by omega
    have hV : (varintBytes k).length + (varintBytes δ).length ≤ 20 := by
      have h1 := varintBytes_le_ten (show k < 2 ^ 64 from hkU)
      have h2 := varintBytes_le_ten (show δ < 2 ^ 64 from hδ)
      omega
    match xs, hlen with
    | [], _ =>
        refine ⟨varintBytes k ++ varintBytes δ, δ, δ, rfl, ?_, ?_, ?_⟩
        · show DeltaRLEWriter.commit s ⟨stepN prevR δ k, k, δ⟩ = _
          unfold DeltaRLEWriter.commit DeltaRLEWriter.flushRun
          rw [if_neg (by omega : ¬ k = 0),
            putBytes_ok (by
              simp only [List.length_append]
              simp only [List.length_nil] at hroom
              omega)]
          simp [streamCommit]
        · simp only [List.length_append, List.length_nil]
          omega
        · intro rest dr
          rw [show k + [].length = k from by simp]
          rw [drReadN_freshRun k hk prevR δ dr rest]
          simp
    | t :: rest2, hlen =>
        have ht : t < U64 := hx t (by simp)
        have hxr : ∀ x ∈ rest2, x < U64 := fun x hm => hx x (by simp [hm])
        have hSP : stepN prevR δ k < U64 := stepN_lt hpR δ k
        have hlen2 : (t :: rest2).length = rest2.length + 1 := by simp
        by_cases hA : sub64 t (stepN prevR δ k) = δ
        · -- the new delta extends the pending run
          have hput : DeltaRLEWriter.put s ⟨stepN prevR δ k, k, δ⟩ t =
              (s, ⟨t, k + 1, δ⟩, true) := by
            unfold DeltaRLEWriter.put
            rw [if_pos (by exact ⟨show k ≠ 0 from by omega, hA⟩)]
          have htS : t = stepN prevR δ (k + 1) := by
            calc t = add64 (stepN prevR δ k) (sub64 t (stepN prevR δ k)) :=
                (add64_sub64 hSP ht).symm
              _ = add64 (stepN prevR δ k) δ := by rw [hA]
              _ = stepN prevR δ (k + 1) := (stepN_succ_last prevR δ k).symm
          obtain ⟨B, dW, dE, hok, hcom, hblen, hread⟩ :=
            ih rest2.length (by omega) rest2 rfl hxr s prevR δ (k + 1) (by omega) hpR
              (by rw [hlen2] at hbound; omega) hδ
              (by rw [hlen2] at hroom; omega)
          rw [← htS] at hok hcom hread
          refine ⟨B, dW, dE, ?_, ?_, ?_, ?_⟩
          · show (drwPutLoop s ⟨stepN prevR δ k, k, δ⟩ (t :: rest2)).2.2 = true
            simp only [drwPutLoop, hput, if_true]
            exact hok
          · show DeltaRLEWriter.commit _ _ = _
            simp only [drwPutLoop, hput, if_true]
            rw [hcom, List.getLastD_cons]
          · rw [hlen2]; omega
          · intro rest dr
            rw [show k + (t :: rest2).length = (k + 1) + rest2.length from by
              rw [hlen2]; omega]
            rw [hread rest dr, runFrom_succ, ← htS, List.getLastD_cons]
            simp [List.append_assoc]
        · -- the pending run is flushed and a fresh run opened
          have hput : DeltaRLEWriter.put s ⟨stepN prevR δ k, k, δ⟩ t =
              (⟨s.cap, s.data ++ (varintBytes k ++ varintBytes δ)⟩,
                ⟨t, 1, sub64 t (stepN prevR δ k)⟩, true) := by
            unfold DeltaRLEWriter.put DeltaRLEWriter.flushRun
            rw [if_neg (by
              simp only [not_and]
              intro _
              exact hA)]
            rw [if_neg (by omega : ¬ k = 0),
              putBytes_ok (by
                simp only [List.length_append]
                rw [hlen2] at hroom
                omega)]
            simp
          have htS : t = stepN (stepN prevR δ k) (sub64 t (stepN prevR δ k)) 1 := by
            rw [show (1 : Nat) = 0 + 1 from rfl, stepN_succ_last]
            exact (add64_sub64 hSP ht).symm
          obtain ⟨B, dW, dE, hok, hcom, hblen, hread⟩ :=
            ih rest2.length (by omega) rest2 rfl hxr
              ⟨s.cap, s.data ++ (varintBytes k ++ varintBytes δ)⟩
              (stepN prevR δ k) (sub64 t (stepN prevR δ k)) 1 (by omega) hSP
              (by rw [hlen2] at hbound; omega) (sub64_lt _ _)
              (by
                show (s.data ++ (varintBytes k ++ varintBytes δ)).length +
                  (20 * rest2.length + 20) ≤ s.cap
                simp only [List.length_append]
                rw [hlen2] at hroom
                omega)
          rw [← htS] at hok hcom hread
          refine ⟨(varintBytes k ++ varintBytes δ) ++ B, dW, dE, ?_, ?_, ?_, ?_⟩
          · show (drwPutLoop s ⟨stepN prevR δ k, k, δ⟩ (t :: rest2)).2.2 = true
            simp only [drwPutLoop, hput, if_true]
            exact hok
          · show DeltaRLEWriter.commit _ _ = _
            simp only [drwPutLoop, hput, if_true]
            rw [hcom]
            simp only [List.append_assoc, List.getLastD_cons]
          · rw [hlen2]
            simp only [List.length_append]
            omega
          · intro rest dr
            rw [show k + (t :: rest2).length = k + (1 + rest2.length) from by
              rw [hlen2]; omega]
            rw [drReadN_add, List.append_assoc,
              drReadN_freshRun k hk prevR δ dr (B ++ rest)]
            simp only
            rw [hread rest δ]
            have hrun1 : runFrom (stepN prevR δ k) (sub64 t (stepN prevR δ k)) 1 = [t] := by
              show [add64 (stepN prevR δ k) (sub64 t (stepN prevR δ k))] = [t]
              rw [add64_sub64 hSP ht]
            rw [hrun1, List.getLastD_cons]
            simp [List.append_assoc]

theorem drw_block (xs : List Nat) (hx : ∀ x ∈ xs, x < U64) (hlen : xs.length < U64)
    (s : BStream) (P rd : Nat) (hP : P < U64)
    (hroom : s.data.length + (20 * xs.length + 20) ≤ s.cap) :
    ∃ B dW,
      (drwPutLoop s ⟨P, 0, rd⟩ xs).2.2 = true ∧
      DeltaRLEWriter.commit (drwPutLoop s ⟨P, 0, rd⟩ xs).1
          (drwPutLoop s ⟨P, 0, rd⟩ xs).2.1 =
        (⟨s.cap, s.data ++ B⟩, ⟨xs.getLastD P, 0, dW⟩, true) ∧
      B.length ≤ 20 * xs.length + 20 ∧
      ∀ rest dr, ∃ dE, drReadN xs.length ⟨P, 0, dr⟩ (B ++ rest) =
        (xs, ⟨xs.getLastD P, 0, dE⟩, rest) := by
  match xs with
  | [] =>
      refine ⟨[], rd, rfl, ?_, by simp, ?_⟩
      · show DeltaRLEWriter.commit s ⟨P, 0, rd⟩ = _
        unfold DeltaRLEWriter.commit DeltaRLEWriter.flushRun
        rw [if_pos rfl]
        simp [streamCommit]
      · intro rest dr
        exact ⟨dr, by simp [drReadN]⟩
  | t :: rest2 =>
      have ht : t < U64 := hx t (by simp)
      have hxr : ∀ x ∈ rest2, x < U64 := fun x hm => hx x (by simp [hm])
      have hlen2 : (t :: rest2).length = rest2.length + 1 := by simp
      have hput : DeltaRLEWriter.put s ⟨P, 0, rd⟩ t =
          (s, ⟨t, 1, sub64 t P⟩, true) := by
        unfold DeltaRLEWriter.put DeltaRLEWriter.flushRun
        rw [if_neg (by
          simp only [not_and]
          intro hcon
          exact absurd rfl hcon)]
        rw [if_pos rfl]
        simp
      have htS : t = stepN P (sub64 t P) 1 := by
        rw [show (1 : Nat) = 0 + 1 from rfl, stepN_succ_last]
        exact (add64_sub64 hP ht).symm
      obtain ⟨B, dW, dE, hok, hcom, hblen, hread⟩ :=
        drw_pending rest2.length rest2 rfl hxr s P (sub64 t P) 1 (by omega) hP
          (by rw [hlen2] at hlen; omega) (sub64_lt _ _) (by rw [hlen2] at hroom; omega)
      rw [← htS] at hok hcom hread
      refine ⟨B, dW, ?_, ?_, ?_, ?_⟩
      · show (drwPutLoop s ⟨P, 0, rd⟩ (t :: rest2)).2.2 = true
        simp only [drwPutLoop, hput, if_true]
        exact hok
      · show DeltaRLEWriter.commit _ _ = _
        simp only [drwPutLoop, hput, if_true]
        rw [hcom, List.getLastD_cons]
      · rw [hlen2]; omega
      · intro rest dr
        refine ⟨dE, ?_⟩
        rw [show (t :: rest2).length = 1 + rest2.length from by rw [hlen2]; omega]
        rw [hread rest dr]
        have hrun1 : runFrom P (sub64 t P) 1 = [t] := by
          show [add64 P (sub64 t P)] = [t]
          rw [add64_sub64 hP ht]
        rw [hrun1, List.getLastD_cons]
        simp

theorem drw_tput (xs : List Nat) (hx : ∀ x ∈ xs, x < U64) (hlen : xs.length < U64)
    (s : BStream) (P rd : Nat) (hP : P < U64)
    (hroom : s.data.length + (20 * xs.length + 20) ≤ s.cap) :
    ∃ B dW,
      DeltaRLEWriter.tput s ⟨P, 0, rd⟩ xs =
        (⟨s.cap, s.data ++ B⟩, ⟨xs.getLastD P, 0, dW⟩, true) ∧
      B.length ≤ 20 * xs.length + 20 ∧
      ∀ rest dr, ∃ dE, drReadN xs.length ⟨P, 0, dr⟩ (B ++ rest) =
        (xs, ⟨xs.getLastD P, 0, dE⟩, rest) := by
  obtain ⟨B, dW, hok, hcom, hblen, hread⟩ := drw_block xs hx hlen s P rd hP hroom
  refine ⟨B, dW, ?_, hblen, hread⟩
  unfold DeltaRLEWriter.tput
  simp only [hok, if_true]
  exact hcom

/-- Modelled from the spec: akumuli_version.h is absent; the codec compares
the version field only for exact equality, so the concrete value is
immaterial; two is used here. -/
def AKUMULI_VERSION : Nat := 2

/-- Status codes returned by the compression utilities. -/
inductive AkuStatus where
  | success
  | eOverflow
  | eBadArg
  | eBadData
deriving DecidableEq

/-- SeriesSlice: series id, the two column arrays and the processed window. -/
structure SeriesSlice where
  id : Nat
  ts : List Nat
  value : List Nat
  offset : Nat
  size : Nat

/-- The window of a column array starting at ix, n entries long. -/
def seg (l : List Nat) (ix n : Nat) : List Nat := (l.drop ix).take n

/-- In-place patch through a reserved-field handle: overwrite bs.length bytes
at byte offset off. -/
def patchBytes (data : List Nat) (off : Nat) (bs : List Nat) : List Nat :=
  data.take off ++ bs ++ data.drop (off + bs.length)

/-- Result of encode_block: final stream, the element count stored through
the reserved count field, the advanced slice and the returned status. -/
structure EncBlockOut where
  stream : BStream
  count : Nat
  slice : SeriesSlice
  status : AkuStatus

/-- The large loop of encode_block: one compressed timestamp batch then one
compressed value batch per 16 samples, stopping at the first failed batch. -/
def encBatchLoop (ts vals : List Nat) :
    Nat → Nat → BStream → DRW → FcmW → Nat → BStream × DRW × FcmW × Nat
  | 0, _, s, tw, vw, count => (s, tw, vw, count)
  | m + 1, ix, s, tw, vw, count =>
      let rt := DeltaRLEWriter.tput s tw (seg ts ix 16)
      if rt.2.2 then
        let rv := FcmStreamWriter.tput rt.1 vw (seg vals ix 16)
        if rv.2.2 then
          encBatchLoop ts vals m (ix + 16) rv.1 rt.2.1 rv.2.1 (count + 16)
        else (rv.1, rt.2.1, rv.2.1, count)
      else (rt.1, rt.2.1, vw, count)

/-- CompressionUtil encode_block. The header is version (u16), a reserved
element count (u32) patched at the end, and the series id (u64); then the
large batch loop and the small tail loop with the two stream commits. The
buffer too small for the header dereferences the null allocate result in the
code, modelled as none. Reserved bytes left unwritten are taken as zero. -/
def encode_block (slice : SeriesSlice) (cap : Nat) : Option EncBlockOut :=
  if cap < 14 then none
  else
    let s0 : BStream :=
      ⟨cap, toBytesLE 2 AKUMULI_VERSION ++ toBytesLE 4 0 ++ toBytesLE 8 slice.id⟩
    let nbatches := (slice.size - slice.offset) / 16
    let tailsize := (slice.size - slice.offset) % 16
    let r := encBatchLoop slice.ts slice.value nbatches slice.offset s0 DRW.start
      FcmW.start 0
    let count0 := r.2.2.2
    let rt := drwPutLoop r.1 r.2.1
      (seg slice.ts (slice.offset + count0) (slice.size - (slice.offset + count0)))
    let ct := DeltaRLEWriter.commit rt.1 rt.2.1
    let after :=
      if ct.2.2 then
        let rv := fcmPutLoop ct.1 r.2.2.1
          (seg slice.value (slice.offset + count0) (slice.size - (slice.offset + count0)))
        let cv := FcmStreamWriter.commit rv.1 rv.2.1
        if cv.2.2 then (cv.1, count0 + tailsize) else (cv.1, count0)
      else (ct.1, count0)
    let count := after.2
    some
      { stream := ⟨after.1.cap, patchBytes after.1.data 2 (toBytesLE 4 (count % 2 ^ 32))⟩
        count := count % 2 ^ 32
        slice := { slice with offset := slice.offset + count }
        status := AkuStatus.success }

/-- Destination slice handed to decode_block: its capacity window only. -/
structure SliceDest where
  size : Nat
  offset : Nat
deriving DecidableEq

/-- Outcome of decode_block: the decoded columns, an error status, or the
AKU_PANIC the code raises on a version mismatch. -/
inductive DecodeBlockResult where
  | ok (id : Nat) (ts : List Nat) (vals : List Nat) (newOffset : Nat)
  | err (status : AkuStatus)
  | panicVersionMismatch
deriving DecidableEq

/-- The large loop of decode_block: per batch, sixteen timestamp reads then
sixteen value reads. -/
def decBatchLoop :
    Nat → DRR → FcmR → List Nat → List Nat × List Nat × DRR × FcmR × List Nat
  | 0, tr, vr, bs => ([], [], tr, vr, bs)
  | m + 1, tr, vr, bs =>
      let xt := drReadN 16 tr bs
      let xv := fcmReadN 16 vr xt.2.2
      let rest := decBatchLoop m xt.2.1 xv.2.1 xv.2.2
      (xt.1 ++ rest.1, xv.1 ++ rest.2.1, rest.2.2)

/-- CompressionUtil decode_block: parse the header, panic on a version
mismatch, reject a too-small destination, then read the batches and the tail. -/
def decode_block (buffer : List Nat) (dest : SliceDest) : DecodeBlockResult :=
  let r1 := readBytes 2 buffer
  let r2 := readBytes 4 r1.2
  let r3 := readBytes 8 r2.2
  if r1.1 ≠ AKUMULI_VERSION then DecodeBlockResult.panicVersionMismatch
  else if dest.size < dest.offset ∨ dest.size - dest.offset < r2.1 then
    DecodeBlockResult.err AkuStatus.eBadArg
  else
    let nbatches := (dest.size - dest.offset) / 16
    let tailsize := (dest.size - dest.offset) % 16
    let rb := decBatchLoop nbatches DRR.start FcmR.start r3.2
    let xt := drReadN tailsize rb.2.2.1 rb.2.2.2.2
    let xv := fcmReadN tailsize rb.2.2.2.1 xt.2.2
    DecodeBlockResult.ok r3.1 (rb.1 ++ xt.1) (rb.2.1 ++ xv.1)
      (dest.offset + (dest.offset + nbatches * 16 + tailsize))

theorem take_add_split (n m : Nat) :
    ∀ (l : List Nat), l.take (n + m) = l.take n ++ (l.drop n).take m := by
  induction n with
  | zero => intro l; simp
  | succ n ih =>
      intro l
      cases l with
      | nil => simp
      | cons a t =>
          rw [show n + 1 + m = (n + m) + 1 from by omega]
          simp only [List.take_succ_cons, List.drop_succ_cons, ih, List.cons_append]

theorem seg_split (l : List Nat) (ix n m : Nat) :
    seg l ix (n + m) = seg l ix n ++ seg l (ix + n) m := by
  unfold seg
  rw [take_add_split n m, List.drop_drop]

theorem seg_length {l : List Nat} {ix n : Nat} (h : ix + n ≤ l.length) :
    (seg l ix n).length = n := by
  unfold seg
  simp only [List.length_take, List.length_drop]
  omega

theorem seg_subset {l : List Nat} {ix n : Nat} {x : Nat} (h : x ∈ seg l ix n) :
    x ∈ l :=
  List.mem_of_mem_drop (List.mem_of_mem_take h)

theorem getLastD_append (l1 l2 : List Nat) (d : Nat) :
    (l1 ++ l2).getLastD d = l2.getLastD (l1.getLastD d) := by
  induction l1 generalizing d with
  | nil => rfl
  | cons a t ih => simp only [List.cons_append, List.getLastD_cons, ih]

theorem getLastD_lt {l : List Nat} {d : Nat} (hl : ∀ x ∈ l, x < U64)
    (hd : d < U64) : l.getLastD d < U64 := by
  induction l generalizing d with
  | nil => exact hd
  | cons a t ih =>
      rw [List.getLastD_cons]
      exact ih (fun x hm => hl x (by simp [hm])) (hl a (by simp))

theorem fcmPredAfter_append (p : FcmPredictor) (l1 l2 : List Nat) :
    fcmPredAfter p (l1 ++ l2) = fcmPredAfter (fcmPredAfter p l1) l2 := by
  unfold fcmPredAfter
  rw [List.foldl_append]

theorem encdec_batches :
    ∀ (m : Nat) (ts vals : List Nat) (ix : Nat) (s : BStream)
      (P rd : Nat) (p : FcmPredictor) (pd pf ne : Nat),
    ix + 16 * m ≤ ts.length → ix + 16 * m ≤ vals.length →
    (∀ x ∈ ts, x < U64) → (∀ x ∈ vals, x < U64) →
    P < U64 → PredWF p → ne % 2 = 0 →
    s.data.length + 484 * m ≤ s.cap →
    ∀ count, ∃ B tD vD vF,
      encBatchLoop ts vals m ix s ⟨P, 0, rd⟩ ⟨p, pd, pf, ne⟩ count =
        (⟨s.cap, s.data ++ B⟩,
          ⟨(seg ts ix (16 * m)).getLastD P, 0, tD⟩,
          ⟨fcmPredAfter p (seg vals ix (16 * m)), vD, vF, ne + 16 * m⟩,
          count + 16 * m) ∧
      B.length ≤ 484 * m ∧
      ∀ (dr flags iter : Nat) (rest : List Nat), iter % 2 = 0 →
        ∃ dE flags2,
          decBatchLoop m ⟨P, 0, dr⟩ ⟨p, flags, iter⟩ (B ++ rest) =
            (seg ts ix (16 * m), seg vals ix (16 * m),
              ⟨(seg ts ix (16 * m)).getLastD P, 0, dE⟩,
              ⟨fcmPredAfter p (seg vals ix (16 * m)), flags2, iter + 16 * m⟩,
              rest) := by
  intro m
  induction m with
  | zero =>
      intro ts vals ix s P rd p pd pf ne _ _ _ _ _ _ _ _ count
      refine ⟨[], rd, pd, pf, ?_, by simp, ?_⟩
      · simp [encBatchLoop, seg, fcmPredAfter]
      · intro dr flags iter rest _
        refine ⟨dr, flags, ?_⟩
        simp [decBatchLoop, seg, fcmPredAfter]
  | succ m ih =>
      intro ts vals ix s P rd p pd pf ne hts hvals htsb hvalsb hP hWF hne hroom count
      have hts16 : (seg ts ix 16).length = 16 := seg_length (by omega)
      have hvals16 : (seg vals ix 16).length = 16 := seg_length (by omega)
      have htsb16 : ∀ x ∈ seg ts ix 16, x < U64 := fun x hm => htsb x (seg_subset hm)
      have hvalsb16 : ∀ x ∈ seg vals ix 16, x < U64 := fun x hm => hvalsb x (seg_subset hm)
      obtain ⟨Bt, dWt, htput, htlen, htread⟩ :=
        drw_tput (seg ts ix 16) htsb16 (by rw [hts16]; decide) s P rd hP
          (by rw [hts16]; omega)
      rw [hts16] at htlen
      have hP2 : (seg ts ix 16).getLastD P < U64 := getLastD_lt htsb16 hP
      obtain ⟨Bv, vD1, vF1, hvput, hvlen, hvread⟩ :=
        fcm_tput_even (seg vals ix 16) (by rw [hvals16]) hvalsb16 p hWF
          ⟨s.cap, s.data ++ Bt⟩ ⟨p, pd, pf, ne⟩ rfl hne
          (by
            show (s.data ++ Bt).length + 9 * (seg vals ix 16).length ≤ s.cap
            simp only [List.length_append]
            rw [hvals16]
            omega)
      rw [hvals16] at hvlen
      rw [hvals16] at hvput hvread
      have hWF2 : PredWF (fcmPredAfter p (seg vals ix 16)) := hWF.after hvalsb16
      obtain ⟨Br, tD, vD, vF, hloop, hrlen, hrread⟩ :=
        ih ts vals (ix + 16) ⟨s.cap, s.data ++ Bt ++ Bv⟩
          ((seg ts ix 16).getLastD P) dWt (fcmPredAfter p (seg vals ix 16)) vD1 vF1
          (ne + 16) (by omega) (by omega) htsb hvalsb hP2 hWF2 (by omega)
          (by
            show (s.data ++ Bt ++ Bv).length + 484 * m ≤ s.cap
            simp only [List.length_append]
            omega)
          (count + 16)
      refine ⟨Bt ++ Bv ++ Br, tD, vD, vF, ?_, ?_, ?_⟩
      · show encBatchLoop ts vals (m + 1) ix s ⟨P, 0, rd⟩ ⟨p, pd, pf, ne⟩ count = _
        rw [show 16 * (m + 1) = 16 + 16 * m from by ring, seg_split ts ix 16 (16 * m),
          seg_split vals ix 16 (16 * m), getLastD_append, fcmPredAfter_append,
          ← Nat.add_assoc ne 16 (16 * m), ← Nat.add_assoc count 16 (16 * m)]
        simp only [encBatchLoop, htput, if_true, hvput, if_true]
        rw [hloop]
        simp only [List.append_assoc]
      · simp only [List.length_append]
        omega
      · intro dr flags iter rest hit
        obtain ⟨dE1, hrd1⟩ := htread (Bv ++ (Br ++ rest)) dr
        obtain ⟨flags2a, hrd2⟩ := hvread flags iter (Br ++ rest) hit
        obtain ⟨dE, flags2, hrd3⟩ := hrread dE1 flags2a (iter + 16) rest (by omega)
        refine ⟨dE, flags2, ?_⟩
        rw [show 16 * (m + 1) = 16 + 16 * m from by ring, seg_split ts ix 16 (16 * m),
          seg_split vals ix 16 (16 * m), getLastD_append, fcmPredAfter_append,
          ← Nat.add_assoc iter 16 (16 * m)]
        rw [hts16] at hrd1
        simp only [decBatchLoop, List.append_assoc]
        rw [hrd1]
        simp only
        rw [hrd2]
        simp only
        rw [hrd3]

theorem seg_all (l : List Nat) : seg l 0 l.length = l := by
  unfold seg
  simp

theorem patchBytes_mid (pre mid post rep : List Nat) (hlen : rep.length = mid.length) :
    patchBytes (pre ++ mid ++ post) pre.length rep = pre ++ rep ++ post := by
  unfold patchBytes
  have h1 : pre ++ mid ++ post = pre ++ (mid ++ post) := List.append_assoc pre mid post
  rw [h1, List.take_left' rfl,
    show pre.length + rep.length = (pre ++ mid).length from by
      simp [List.length_append, hlen],
    show pre ++ (mid ++ post) = (pre ++ mid) ++ post from (List.append_assoc pre mid post).symm,
    List.drop_left' rfl, List.append_assoc]

theorem patch_count (idv cnt : Nat) (body : List Nat) :
    patchBytes (toBytesLE 2 AKUMULI_VERSION ++ (toBytesLE 4 0 ++ (toBytesLE 8 idv ++ body)))
      2 (toBytesLE 4 cnt) =
    toBytesLE 2 AKUMULI_VERSION ++ (toBytesLE 4 cnt ++ (toBytesLE 8 idv ++ body)) := by
  have h := patchBytes_mid (toBytesLE 2 AKUMULI_VERSION) (toBytesLE 4 0)
    (toBytesLE 8 idv ++ body) (toBytesLE 4 cnt) (by simp [toBytesLE_length])
  rw [toBytesLE_length] at h
  exact h

theorem encode_block_roundtrip (id : Nat) (ts vals : List Nat) (cap : Nat)
    (hlen : ts.length = vals.length) (hn : ts.length < 2 ^ 32)
    (hid : id < U64) (hts : ∀ x ∈ ts, x < U64) (hvals : ∀ x ∈ vals, x < U64)
    (hcap : 44 + 31 * ts.length ≤ cap) :
    ∃ out, encode_block ⟨id, ts, vals, 0, ts.length⟩ cap = some out ∧
      out.count = ts.length ∧ out.status = AkuStatus.success ∧
      out.slice.offset = ts.length ∧
      decode_block out.stream.data ⟨ts.length, 0⟩ =
        DecodeBlockResult.ok id ts vals ts.length := by
  set n := ts.length with hndef
  set q := n / 16 with hqdef
  set r := n % 16 with hrdef
  have hqr : 16 * q + r = n := by omega
  have hhead : (toBytesLE 2 AKUMULI_VERSION ++ toBytesLE 4 0 ++ toBytesLE 8 id).length = 14 := by
    simp [toBytesLE_length]
  -- the batch loop
  obtain ⟨Bb, tD, vD, vF, hbatch, hblen, hbread⟩ :=
    encdec_batches q ts vals 0 ⟨cap, toBytesLE 2 AKUMULI_VERSION ++ toBytesLE 4 0 ++
      toBytesLE 8 id⟩ 0 0 FcmPredictor.start 0 0 0
      (by omega) (by omega) hts hvals (by unfold U64; norm_num) PredWF.start (by omega)
      (by
        show (toBytesLE 2 AKUMULI_VERSION ++ toBytesLE 4 0 ++ toBytesLE 8 id).length
          + 484 * q ≤ cap
        rw [hhead]
        omega) 0
  set T1 := (seg ts 0 (16 * q)).getLastD 0 with hT1def
  have hT1 : T1 < U64 :=
    getLastD_lt (fun x hm => hts x (seg_subset hm)) (by unfold U64; norm_num)
  have hp1WF : PredWF (fcmPredAfter FcmPredictor.start (seg vals 0 (16 * q))) :=
    PredWF.start.after (fun x hm => hvals x (seg_subset hm))
  -- the tail timestamps
  have htseg : ∀ l : List Nat, seg l (16 * q) (n - 16 * q) = seg l (16 * q) r := by
    intro l
    rw [show n - 16 * q = r from by omega]
  have htsegb : ∀ x ∈ seg ts (16 * q) r, x < U64 := fun x hm => hts x (seg_subset hm)
  have hvsegb : ∀ x ∈ seg vals (16 * q) r, x < U64 := fun x hm => hvals x (seg_subset hm)
  have htsegl : (seg ts (16 * q) r).length = r := seg_length (by omega)
  have hvsegl : (seg vals (16 * q) r).length = r :=
    seg_length (by rw [← hlen]; omega)
  obtain ⟨Bt2, dW2, htok, htcom, htlen2, htread2⟩ :=
    drw_block (seg ts (16 * q) r) htsegb (by rw [htsegl]; show r < U64; unfold U64; omega)
      ⟨cap, (toBytesLE 2 AKUMULI_VERSION ++ toBytesLE 4 0 ++ toBytesLE 8 id) ++ Bb⟩
      T1 tD hT1
      (by
        show ((toBytesLE 2 AKUMULI_VERSION ++ toBytesLE 4 0 ++ toBytesLE 8 id) ++ Bb).length
          + (20 * (seg ts (16 * q) r).length + 20) ≤ cap
        simp only [List.length_append, toBytesLE_length]
        rw [htsegl]
        omega)
  rw [htsegl] at htread2
  rw [htsegl] at htlen2
  -- the tail values
  obtain ⟨Bv2, C2, w2v, hvok, hvcom, hvlen2, hvread2⟩ :=
    fcm_tail_block (seg vals (16 * q) r) hvsegb
      (fcmPredAfter FcmPredictor.start (seg vals 0 (16 * q))) hp1WF
      ⟨cap, ((toBytesLE 2 AKUMULI_VERSION ++ toBytesLE 4 0 ++ toBytesLE 8 id) ++ Bb) ++ Bt2⟩
      ⟨fcmPredAfter FcmPredictor.start (seg vals 0 (16 * q)), vD, vF, 16 * q⟩ rfl
      (by show (16 * q) % 2 = 0; omega)
      (by
        show (((toBytesLE 2 AKUMULI_VERSION ++ toBytesLE 4 0 ++ toBytesLE 8 id) ++ Bb) ++ Bt2).length
          + (9 * (seg vals (16 * q) r).length + 10) ≤ cap
        simp only [List.length_append, toBytesLE_length]
        rw [hvsegl]
        omega)
  rw [hvsegl] at hvread2
  -- assemble the encoder run
  have hmod : (16 * q + r) % 2 ^ 32 = n := by omega
  have henc : encode_block ⟨id, ts, vals, 0, ts.length⟩ cap = some
      { stream := ⟨cap, toBytesLE 2 AKUMULI_VERSION ++ toBytesLE 4 n ++ toBytesLE 8 id ++
          (Bb ++ (Bt2 ++ Bv2))⟩
        count := n
        slice := { id := id, ts := ts, value := vals, offset := n, size := ts.length }
        status := AkuStatus.success } := by
    unfold encode_block
    rw [if_neg (by omega)]
    simp only [show DRW.start = (⟨0, 0, 0⟩ : DRW) from rfl,
      show FcmW.start = (⟨FcmPredictor.start, 0, 0, 0⟩ : FcmW) from rfl,
      Nat.sub_zero, ← hndef, ← hqdef, ← hrdef]
    rw [hbatch]
    simp only [Nat.zero_add]
    rw [htseg ts, htseg vals, htcom]
    simp only [if_true]
    rw [hvcom]
    simp only [if_true]
    rw [hmod]
    simp only [List.append_assoc]
    rw [patch_count]
    rw [hqr]
  -- assemble the decoder run
  obtain ⟨dE, flags2, hbr⟩ := hbread 0 0 0 (Bt2 ++ Bv2) (by omega)
  obtain ⟨dE2, htr⟩ := htread2 Bv2 dE
  obtain ⟨flags3, hvr⟩ := hvread2 flags2 (0 + 16 * q) [] (by omega)
  rw [List.append_nil, List.append_nil] at hvr
  have h256n : n < 256 ^ 4 := by
    have h4 : (256 : Nat) ^ 4 = 2 ^ 32 := by norm_num
    omega
  have h256id : id < 256 ^ 8 := by
    have h8 : (256 : Nat) ^ 8 = U64 := by unfold U64; norm_num
    omega
  have hsegts : seg ts 0 (16 * q) ++ seg ts (16 * q) r = ts := by
    have h := (seg_split ts 0 (16 * q) r).symm
    rw [Nat.zero_add] at h
    rw [h, show 16 * q + r = ts.length from by omega, seg_all]
  have hsegvals : seg vals 0 (16 * q) ++ seg vals (16 * q) r = vals := by
    have h := (seg_split vals 0 (16 * q) r).symm
    rw [Nat.zero_add] at h
    rw [h, show 16 * q + r = vals.length from by omega, seg_all]
  have hdec : decode_block (toBytesLE 2 AKUMULI_VERSION ++ toBytesLE 4 n ++ toBytesLE 8 id ++
      (Bb ++ (Bt2 ++ Bv2))) ⟨n, 0⟩ = DecodeBlockResult.ok id ts vals n := by
    unfold decode_block
    simp only [List.append_assoc]
    rw [readBytes_exact 2 AKUMULI_VERSION _ (by norm_num [AKUMULI_VERSION]),
        readBytes_exact 4 n _ h256n,
        readBytes_exact 8 id _ h256id]
    rw [if_neg (show ¬(AKUMULI_VERSION ≠ AKUMULI_VERSION) from by simp)]
    rw [if_neg (show ¬(n < 0 ∨ n - 0 < n) from by omega)]
    simp only [Nat.sub_zero, ← hqdef, ← hrdef,
      show DRR.start = (⟨0, 0, 0⟩ : DRR) from rfl,
      show FcmR.start = (⟨FcmPredictor.start, 0, 0⟩ : FcmR) from rfl]
    rw [hbr, htr, hvr]
    rw [hsegts, hsegvals]
    simp only [Nat.zero_add]
    rw [Nat.mul_comm q 16, hqr]
  exact ⟨_, henc, rfl, rfl, hndef.symm, hdec⟩

/-- The three parallel columns of an uncompressed chunk. -/
structure UncompressedChunk where
  paramids : List Nat
  timestamps : List Nat
  values : List Nat
deriving DecidableEq

/-- reorder_chunk_header: refuse columns of unequal length, otherwise
permute all three columns by the index vector stable-sorted under the
comparator (std::stable_sort modelled as mergeSort on the negated flipped
comparator, Lean's stable sort) and append them to the output chunk. -/
def reorder_chunk_header (header : UncompressedChunk) (out : UncompressedChunk)
    (f : Nat → Nat → Bool) : Bool × UncompressedChunk :=
  let len := header.timestamps.length
  if len ≠ header.values.length ∨ len ≠ header.paramids.length then (false, out)
  else
    let index := (List.range len).mergeSort (fun i j => ! f j i)
    (true,
      ⟨out.paramids ++ index.map (fun ix => header.paramids.getD ix 0),
       out.timestamps ++ index.map (fun ix => header.timestamps.getD ix 0),
       out.values ++ index.map (fun ix => header.values.getD ix 0)⟩)

/-- CompressionUtil convert_from_chunk_order: reorder by timestamp. -/
def convert_from_chunk_order (header out : UncompressedChunk) :
    Bool × UncompressedChunk :=
  reorder_chunk_header header out
    (fun lhs rhs => decide (header.timestamps.getD lhs 0 < header.timestamps.getD rhs 0))

/-- CompressionUtil convert_from_time_order: reorder by paramid. -/
def convert_from_time_order (header out : UncompressedChunk) :
    Bool × UncompressedChunk :=
  reorder_chunk_header header out
    (fun lhs rhs => decide (header.paramids.getD lhs 0 < header.paramids.getD rhs 0))

theorem stable_pair_mergeSort_idx (key : Nat → Nat) (len i j : Nat)
    (hij : i < j) (hj : j < len) (heq : key i = key j) :
    List.Sublist [i, j]
      ((List.range len).mergeSort (fun a b => ! decide (key b < key a))) := by
  apply List.pair_sublist_mergeSort
  · intro a b c hab hbc
    simp only [Bool.not_eq_true', decide_eq_false_iff_not, Nat.not_lt] at hab hbc ⊢
    omega
  · intro a b
    simp only [Bool.or_eq_true, Bool.not_eq_true', decide_eq_false_iff_not, Nat.not_lt]
    omega
  · simp only [Bool.not_eq_true', decide_eq_false_iff_not, Nat.not_lt]
    omega
  · have h1 : List.Sublist [i] (List.range j) :=
      List.singleton_sublist.mpr (List.mem_range.mpr hij)
    have h2 : List.Sublist ([i] ++ [j]) (List.range j ++ [j]) :=
      List.Sublist.append h1 (List.Sublist.refl [j])
    have h3 : List.Sublist (List.range j ++ [j]) (List.range len) := by
      rw [← List.range_succ]
      exact List.range_sublist.mpr (by omega)
    exact h2.trans h3

/-- Modelled from the spec: the largest representable uint64 timestamp. -/
def AKU_MAX_TIMESTAMP : Nat := U64 - 1

/-- Modelled from the spec: the smallest timestamp. -/
def AKU_MIN_TIMESTAMP : Nat := 0

/-- The paramid put loop of encode_chunk: every put result is discarded and
the loop continues on the advanced stream and writer state. -/
def drwPutAll (s : BStream) (w : DRW) : List Nat → BStream × DRW
  | [] => (s, w)
  | v :: t =>
      let r := DeltaRLEWriter.put s w v
      drwPutAll r.1 r.2.1 t

/-- The timestamp put loop of encode_chunk: the same discarded puts, with
the running minimum and maximum folded along. -/
def tsPutAll (s : BStream) (w : DRW) (mints maxts : Nat) :
    List Nat → BStream × DRW × Nat × Nat
  | [] => (s, w, mints, maxts)
  | v :: t =>
      let r := DeltaRLEWriter.put s w v
      tsPutAll r.1 r.2.1 (min mints v) (max maxts v) t

/-- CompressionUtil encode_chunk over the spec-modelled byte cursor: the
length-prefixed paramid DeltaRLE stream, the length-prefixed timestamp
DeltaRLE stream folding the minimum and maximum along its put loop, the
ncolumns field, then the doubles stream whose length prefix the code patches
with the element count compress_doubles returns. ts_begin, ts_end and
n_elements are the returned out-parameters; write results are discarded
exactly where the code discards them. -/
def encode_chunk (data : UncompressedChunk) (s : BStream) :
    BStream × Nat × Nat × Nat :=
  let off1 := s.data.length
  let s1 := (putRaw s 4 0).1
  let r1 := drwPutAll s1 DRW.start data.paramids
  let c1 := DeltaRLEWriter.commit r1.1 r1.2
  let s2 : BStream := ⟨c1.1.cap,
    patchBytes c1.1.data off1 (toBytesLE 4 ((c1.1.data.length - (off1 + 4)) % 2 ^ 32))⟩
  let off2 := s2.data.length
  let s3 := (putRaw s2 4 0).1
  let r2 := tsPutAll s3 DRW.start AKU_MAX_TIMESTAMP AKU_MIN_TIMESTAMP data.timestamps
  let c2 := DeltaRLEWriter.commit r2.1 r2.2.1
  let s4 : BStream := ⟨c2.1.cap,
    patchBytes c2.1.data off2 (toBytesLE 4 ((c2.1.data.length - (off2 + 4)) % 2 ^ 32))⟩
  let s5 := (putRaw s4 4 1).1
  let off3 := s5.data.length
  let s6 := (putRaw s5 4 0).1
  let r3 := compress_doubles data.values s6
  let s7 : BStream := ⟨r3.1.cap, patchBytes r3.1.data off3 (toBytesLE 4 (r3.2 % 2 ^ 32))⟩
  (s7, r2.2.2.1, r2.2.2.2, data.paramids.length)

theorem tsPutAll_minmax (l : List Nat) : ∀ (s : BStream) (w : DRW) (mints maxts : Nat),
    (tsPutAll s w mints maxts l).2.2 =
      (l.foldl min mints, l.foldl max maxts) := by
  induction l with
  | nil => intro s w mints maxts; rfl
  | cons v t ih =>
      intro s w mints maxts
      simp only [tsPutAll, List.foldl_cons]
      exact ih _ _ _ _

theorem foldl_min_le_init (l : List Nat) : ∀ a : Nat, l.foldl min a ≤ a := by
  induction l with
  | nil => intro a; exact Nat.le_refl a
  | cons x t ih =>
      intro a
      exact Nat.le_trans (ih (min a x)) (min_le_left a x)

theorem foldl_min_le (l : List Nat) : ∀ (a x : Nat), x ∈ l → l.foldl min a ≤ x := by
  induction l with
  | nil => intro a x hx; simp at hx
  | cons y t ih =>
      intro a x hx
      rcases List.mem_cons.mp hx with h | h
      · subst h
        exact Nat.le_trans (foldl_min_le_init t (min a x)) (min_le_right a x)
      · exact ih (min a y) x h

theorem foldl_min_mem (l : List Nat) : ∀ a : Nat, l ≠ [] →
    l.foldl min a ∈ l ∨ l.foldl min a = a := by
  induction l with
  | nil => intro a h; exact absurd rfl h
  | cons x t ih =>
      intro a _
      by_cases ht : t = []
      · subst ht
        simp only [List.foldl_cons, List.foldl_nil, List.mem_singleton]
        rcases Nat.le_total a x with h | h
        · exact Or.inr (by omega)
        · exact Or.inl (by omega)
      · rcases ih (min a x) ht with h | h
        · exact Or.inl (List.mem_cons_of_mem x h)
        · rcases Nat.le_total a x with h2 | h2
          · refine Or.inr ?_
            rw [List.foldl_cons, h]
            omega
          · refine Or.inl ?_
            rw [List.foldl_cons, h,
              show min a x = x from by omega]
            simp

theorem foldl_max_ge_init (l : List Nat) : ∀ a : Nat, a ≤ l.foldl max a := by
  induction l with
  | nil => intro a; exact Nat.le_refl a
  | cons x t ih =>
      intro a
      exact Nat.le_trans (le_max_left a x) (ih (max a x))

theorem foldl_max_ge (l : List Nat) : ∀ (a x : Nat), x ∈ l → x ≤ l.foldl max a := by
  induction l with
  | nil => intro a x hx; simp at hx
  | cons y t ih =>
      intro a x hx
      rcases List.mem_cons.mp hx with h | h
      · subst h
        exact Nat.le_trans (le_max_right a x) (foldl_max_ge_init t (max a x))
      · exact ih (max a y) x h

theorem foldl_max_mem (l : List Nat) : ∀ a : Nat, l ≠ [] →
    l.foldl max a ∈ l ∨ l.foldl max a = a := by
  induction l with
  | nil => intro a h; exact absurd rfl h
  | cons x t ih =>
      intro a _
      by_cases ht : t = []
      · subst ht
        simp only [List.foldl_cons, List.foldl_nil, List.mem_singleton]
        rcases Nat.le_total a x with h | h
        · exact Or.inl (by omega)
        · exact Or.inr (by omega)
      · rcases ih (max a x) ht with h | h
        · exact Or.inl (List.mem_cons_of_mem x h)
        · rcases Nat.le_total a x with h2 | h2
          · refine Or.inl ?_
            rw [List.foldl_cons, h,
              show max a x = x from by omega]
            simp
          · refine Or.inr ?_
            rw [List.foldl_cons, h]
            omega

/-- Monotone growth of the byte cursor: same capacity, the old bytes an
unchanged prefix, and a within-capacity cursor stays within capacity. -/
def SGrow (s s2 : BStream) : Prop :=
  s2.cap = s.cap ∧ (∃ add, s2.data = s.data ++ add) ∧
  (s.data.length ≤ s.cap → s2.data.length ≤ s2.cap)

theorem SGrow.refl (s : BStream) : SGrow s s :=
  ⟨rfl, ⟨[], by simp⟩, fun h => h⟩

theorem SGrow.trans {s1 s2 s3 : BStream} (h1 : SGrow s1 s2) (h2 : SGrow s2 s3) :
    SGrow s1 s3 := by
  obtain ⟨hc1, ⟨a1, hd1⟩, hl1⟩ := h1
  obtain ⟨hc2, ⟨a2, hd2⟩, hl2⟩ := h2
  refine ⟨hc2.trans hc1, ⟨a1 ++ a2, by rw [hd2, hd1, List.append_assoc]⟩, ?_⟩
  intro h
  exact hl2 (hl1 h)

theorem putBytes_sgrow (s : BStream) (bs : List Nat) : SGrow s (putBytes s bs).1 := by
  unfold putBytes
  split
  · rename_i h
    exact ⟨rfl, ⟨bs, rfl⟩, fun _ => by simp only [List.length_append]; omega⟩
  · exact SGrow.refl s

theorem putRaw_sgrow (s : BStream) (w x : Nat) : SGrow s (putRaw s w x).1 :=
  putBytes_sgrow s (toBytesLE w x)

theorem putUnits_sgrow : ∀ (units : List (Nat × Nat)) (s : BStream),
    SGrow s (putUnits s units).1 := by
  intro units
  induction units with
  | nil => intro s; exact SGrow.refl s
  | cons u t ih =>
      intro s
      obtain ⟨w, x⟩ := u
      unfold putUnits
      simp only []
      split
      · exact (putRaw_sgrow s w x).trans (ih _)
      · exact putRaw_sgrow s w x

theorem encode_value_sgrow (s : BStream) (d flag : Nat) :
    SGrow s (encode_value s d flag).1 :=
  putUnits_sgrow _ s

theorem flushRun_sgrow (s : BStream) (w : DRW) :
    SGrow s (DeltaRLEWriter.flushRun s w).1 := by
  unfold DeltaRLEWriter.flushRun
  simp only []
  split
  · exact SGrow.refl s
  · split
    · exact putBytes_sgrow s _
    · exact putBytes_sgrow s _

theorem drw_put_sgrow (s : BStream) (w : DRW) (ts : Nat) :
    SGrow s (DeltaRLEWriter.put s w ts).1 := by
  unfold DeltaRLEWriter.put
  simp only []
  split
  · exact SGrow.refl s
  · split
    · exact flushRun_sgrow s w
    · exact flushRun_sgrow s w

theorem drwPutLoop_sgrow : ∀ (l : List Nat) (s : BStream) (w : DRW),
    SGrow s (drwPutLoop s w l).1 := by
  intro l
  induction l with
  | nil => intro s w; exact SGrow.refl s
  | cons v t ih =>
      intro s w
      unfold drwPutLoop
      simp only []
      split
      · exact (drw_put_sgrow s w v).trans (ih _ _)
      · exact drw_put_sgrow s w v

theorem drw_commit_sgrow (s : BStream) (w : DRW) :
    SGrow s (DeltaRLEWriter.commit s w).1 := by
  unfold DeltaRLEWriter.commit
  simp only []
  split
  · exact flushRun_sgrow s w
  · exact flushRun_sgrow s w

theorem drw_tput_sgrow (s : BStream) (w : DRW) (l : List Nat) :
    SGrow s (DeltaRLEWriter.tput s w l).1 := by
  unfold DeltaRLEWriter.tput
  simp only []
  split
  · exact (drwPutLoop_sgrow l s w).trans (drw_commit_sgrow _ _)
  · exact drwPutLoop_sgrow l s w

theorem fcm_put_sgrow (s : BStream) (w : FcmW) (v : Nat) :
    SGrow s (FcmStreamWriter.put s w v).1 := by
  unfold FcmStreamWriter.put
  simp only []
  split
  · exact SGrow.refl s
  · split
    · split
      · split
        · exact ((putRaw_sgrow s 1 _).trans (encode_value_sgrow _ _ _)).trans
            (encode_value_sgrow _ _ _)
        · exact ((putRaw_sgrow s 1 _).trans (encode_value_sgrow _ _ _)).trans
            (encode_value_sgrow _ _ _)
      · exact (putRaw_sgrow s 1 _).trans (encode_value_sgrow _ _ _)
    · exact putRaw_sgrow s 1 _

theorem fcm_commit_sgrow (s : BStream) (w : FcmW) :
    SGrow s (FcmStreamWriter.commit s w).1 := by
  unfold FcmStreamWriter.commit
  simp only []
  split
  · exact SGrow.refl s
  · split
    · split
      · split
        · exact ((putRaw_sgrow s 1 _).trans (encode_value_sgrow _ _ _)).trans
            (encode_value_sgrow _ _ _)
        · exact ((putRaw_sgrow s 1 _).trans (encode_value_sgrow _ _ _)).trans
            (encode_value_sgrow _ _ _)
      · exact (putRaw_sgrow s 1 _).trans (encode_value_sgrow _ _ _)
    · exact putRaw_sgrow s 1 _

theorem fcmPutLoop_sgrow : ∀ (l : List Nat) (s : BStream) (w : FcmW),
    SGrow s (fcmPutLoop s w l).1 := by
  intro l
  induction l with
  | nil => intro s w; exact SGrow.refl s
  | cons v t ih =>
      intro s w
      unfold fcmPutLoop
      simp only []
      split
      · exact (fcm_put_sgrow s w v).trans (ih _ _)
      · exact fcm_put_sgrow s w v

theorem fcm_tput_sgrow (s : BStream) (w : FcmW) (l : List Nat) :
    SGrow s (FcmStreamWriter.tput s w l).1 := by
  unfold FcmStreamWriter.tput
  simp only []
  split
  · exact (fcmPutLoop_sgrow l s w).trans (fcm_commit_sgrow _ _)
  · exact fcmPutLoop_sgrow l s w

/-- A u16 header field read from the block bytes, little-endian. -/
def read16 (data : List Nat) (off : Nat) : Nat := fromBytesLE ((data.drop off).take 2)

/-- A u16 header field written in place, wrapping as the uint16 does. -/
def write16 (data : List Nat) (off v : Nat) : List Nat :=
  patchBytes data off (toBytesLE 2 (v % 2 ^ 16))

theorem read16_append {d : List Nat} (add : List Nat) {off : Nat}
    (h : off + 2 ≤ d.length) : read16 (d ++ add) off = read16 d off := by
  unfold read16
  rw [List.drop_append_of_le_length (by omega),
    List.take_append_of_le_length (by simp [List.length_drop]; omega)]

theorem patchBytes_length {d bs : List Nat} {off : Nat}
    (h : off + bs.length ≤ d.length) : (patchBytes d off bs).length = d.length := by
  unfold patchBytes
  simp only [List.length_append, List.length_take, List.length_drop]
  omega

theorem read16_write16 {d : List Nat} {off v : Nat} (h : off + 2 ≤ d.length) :
    read16 (write16 d off v) off = v % 2 ^ 16 := by
  unfold read16 write16 patchBytes
  rw [toBytesLE_length]
  have hlt : (d.take off).length = off := by
    simp only [List.length_take]
    omega
  rw [List.append_assoc, List.drop_left' hlt, List.take_left' (toBytesLE_length 2 _),
    fromBytesLE_toBytesLE]
  have h216 : (256 : Nat) ^ 2 = 2 ^ 16 := by norm_num
  rw [h216, Nat.mod_mod_of_dvd _ (dvd_refl _)]

/-- V2 DataBlockWriter state: the byte cursor, both stream codecs, the
write index, the two 16-slot scratch buffers, and the two header field
pointers held as byte offsets (pmain_off is a pointer the buggy increment
moves; ptail_off is dereferenced). -/
structure DBW where
  stream : BStream
  tsw : DRW
  vw : FcmW
  write_index : Nat
  ts_buf : Nat → Nat
  val_buf : Nat → Nat
  pmain_off : Nat
  ptail_off : Nat

/-- DataBlockWriter room_for_chunk: false when fewer than MARGIN = 10*16 +
9*16 = 304 bytes remain. -/
def DataBlockWriter.room_for_chunk (s : BStream) : Bool :=
  decide (304 ≤ s.space_left)

/-- The DataBlockWriter constructor: version word, the two allocated u16
header fields (main size then tail size, zero until written), the series
id; a failed write or allocation panics, modelled as none. -/
def DataBlockWriter.init (id cap : Nat) : Option DBW :=
  let s0 : BStream := ⟨cap, []⟩
  let r1 := putRaw s0 2 AKUMULI_VERSION
  let pmain := r1.1.data.length
  let r2 := putRaw r1.1 2 0
  let ptail := r2.1.data.length
  let r3 := putRaw r2.1 2 0
  let r4 := putRaw r3.1 8 id
  if r1.2 && r2.2 && r3.2 && r4.2 then
    some ⟨r4.1, DRW.start, FcmW.start, 0, fun _ => 0, fun _ => 0, pmain, ptail⟩
  else none

/-- DataBlockWriter put. With room for a worst-case chunk, buffer the sample
and, on a filled chunk, tput the timestamp batch then the value batch; the
successful flush performs pmain_size_ += CHUNK_SIZE, pointer arithmetic on
the u16 pointer, so the model moves pmain_off by 32 bytes and the header
field itself is never touched. Without room, append the raw pair to the
tail and increment the tail count through ptail_off. -/
def DataBlockWriter.put (w : DBW) (ts val : Nat) : AkuStatus × DBW :=
  if DataBlockWriter.room_for_chunk w.stream then
    let tb := fun i => if i = (w.write_index &&& 15) then ts else w.ts_buf i
    let vb := fun i => if i = (w.write_index &&& 15) then val else w.val_buf i
    let wi := w.write_index + 1
    if wi &&& 15 = 0 then
      let rt := DeltaRLEWriter.tput w.stream w.tsw ((List.range 16).map tb)
      if rt.2.2 then
        let rv := FcmStreamWriter.tput rt.1 w.vw ((List.range 16).map vb)
        if rv.2.2 then
          (AkuStatus.success,
            ⟨rv.1, rt.2.1, rv.2.1, wi, tb, vb, w.pmain_off + 32, w.ptail_off⟩)
        else
          (AkuStatus.eOverflow,
            ⟨rv.1, rt.2.1, rv.2.1, wi, tb, vb, w.pmain_off, w.ptail_off⟩)
      else
        (AkuStatus.eOverflow,
          ⟨rt.1, rt.2.1, w.vw, wi, tb, vb, w.pmain_off, w.ptail_off⟩)
    else
      (AkuStatus.success, ⟨w.stream, w.tsw, w.vw, wi, tb, vb, w.pmain_off, w.ptail_off⟩)
  else
    let wi := w.write_index + 1
    let r1 := putRaw w.stream 8 ts
    if r1.2 then
      let r2 := putRaw r1.1 8 val
      if r2.2 then
        let s2 : BStream := ⟨r2.1.cap,
          write16 r2.1.data w.ptail_off (read16 r2.1.data w.ptail_off + 1)⟩
        (AkuStatus.success,
          ⟨s2, w.tsw, w.vw, wi, w.ts_buf, w.val_buf, w.pmain_off, w.ptail_off⟩)
      else
        (AkuStatus.eOverflow,
          ⟨r2.1, w.tsw, w.vw, wi, w.ts_buf, w.val_buf, w.pmain_off, w.ptail_off⟩)
    else
      (AkuStatus.eOverflow,
        ⟨r1.1, w.tsw, w.vw, wi, w.ts_buf, w.val_buf, w.pmain_off, w.ptail_off⟩)

/-- DataBlockWriter close: the body is empty. -/
def DataBlockWriter.close (w : DBW) : DBW := w

/-- A sequence of puts, statuses collected in order. -/
def dbwPutN (w : DBW) : List (Nat × Nat) → List AkuStatus × DBW
  | [] => ([], w)
  | (t, v) :: rest =>
      let r := DataBlockWriter.put w t v
      let r2 := dbwPutN r.2 rest
      (r.1 :: r2.1, r2.2)

/-- The writer invariant: the tail pointer sits at header offset 4, the
header is in place, the cursor is within capacity, and a nonzero tail count
t has consumed enough of the buffer that space_left + 16 t ≤ 303. -/
def dbwInv (w : DBW) : Prop :=
  w.ptail_off = 4 ∧ 6 ≤ w.stream.data.length ∧
  w.stream.data.length ≤ w.stream.cap ∧
  (read16 w.stream.data 4 = 0 ∨
    w.stream.cap - w.stream.data.length + 16 * read16 w.stream.data 4 ≤ 303)

theorem putRaw_fail {s : BStream} {w x : Nat} (h : ¬ s.data.length + w ≤ s.cap) :
    putRaw s w x = (s, false) := by
  unfold putRaw putBytes
  rw [if_neg (by rw [toBytesLE_length]; exact h)]

theorem dbwInv_keep {s2 : BStream} {w : DBW} (hoff : w.ptail_off = 4)
    (hlen : 6 ≤ w.stream.data.length) (hcap : w.stream.data.length ≤ w.stream.cap)
    (ht0 : read16 w.stream.data 4 = 0) (hg : SGrow w.stream s2)
    (tsw2 : DRW) (vw2 : FcmW) (wi : Nat) (tb vb : Nat → Nat) (pm : Nat) :
    dbwInv ⟨s2, tsw2, vw2, wi, tb, vb, pm, w.ptail_off⟩ := by
  obtain ⟨gc, ⟨add, gd⟩, gl⟩ := hg
  unfold dbwInv
  refine ⟨hoff, ?_, ?_, Or.inl ?_⟩
  · show 6 ≤ s2.data.length
    rw [gd]
    simp only [List.length_append]
    omega
  · show s2.data.length ≤ s2.cap
    exact gl hcap
  · show read16 s2.data 4 = 0
    rw [gd, read16_append add (by omega), ht0]

theorem dbw_put_inv {w : DBW} (hw : dbwInv w) (ts v : Nat) :
    dbwInv (DataBlockWriter.put w ts v).2 := by
  obtain ⟨hoff, hlen, hcap, hdisj⟩ := hw
  unfold DataBlockWriter.put
  simp only []
  by_cases hroom : DataBlockWriter.room_for_chunk w.stream = true
  · rw [if_pos hroom]
    have ht0 : read16 w.stream.data 4 = 0 := by
      have hsp : 304 ≤ w.stream.cap - w.stream.data.length := by
        unfold DataBlockWriter.room_for_chunk BStream.space_left at hroom
        exact of_decide_eq_true hroom
      rcases hdisj with h | h
      · exact h
      · omega
    split
    · split
      · split
        · exact dbwInv_keep hoff hlen hcap ht0
            ((drw_tput_sgrow _ _ _).trans (fcm_tput_sgrow _ _ _)) _ _ _ _ _ _
        · exact dbwInv_keep hoff hlen hcap ht0
            ((drw_tput_sgrow _ _ _).trans (fcm_tput_sgrow _ _ _)) _ _ _ _ _ _
      · exact dbwInv_keep hoff hlen hcap ht0 (drw_tput_sgrow _ _ _) _ _ _ _ _ _
    · exact ⟨hoff, hlen, hcap, hdisj⟩
  · rw [if_neg hroom]
    have hsp : w.stream.cap - w.stream.data.length < 304 := by
      unfold DataBlockWriter.room_for_chunk BStream.space_left at hroom
      simp only [decide_eq_true_eq] at hroom
      omega
    by_cases hg1 : w.stream.data.length + 8 ≤ w.stream.cap
    · rw [putRaw_ok hg1]
      simp only []
      by_cases hg2 : w.stream.data.length + 16 ≤ w.stream.cap
      · rw [putRaw_ok (show (w.stream.data ++ toBytesLE 8 ts).length + 8 ≤ w.stream.cap
          from by simp only [List.length_append, toBytesLE_length]; omega)]
        simp only []
        rw [hoff]
        set t := read16 w.stream.data 4 with htdef
        have htlt : t < 19 := by rcases hdisj with h | h <;> omega
        have hD : read16 ((w.stream.data ++ toBytesLE 8 ts) ++ toBytesLE 8 v) 4 = t := by
          rw [read16_append _ (by
              simp only [List.length_append, toBytesLE_length]
              omega),
            read16_append _ (by omega)]
        rw [hD]
        have hlenD : ((w.stream.data ++ toBytesLE 8 ts) ++ toBytesLE 8 v).length =
            w.stream.data.length + 16 := by
          simp only [List.length_append, toBytesLE_length]
        have hwlen : (write16 ((w.stream.data ++ toBytesLE 8 ts) ++ toBytesLE 8 v)
            4 (t + 1)).length = w.stream.data.length + 16 := by
          unfold write16
          rw [patchBytes_length (by rw [toBytesLE_length]; omega), hlenD]
        have hwr : read16 (write16 ((w.stream.data ++ toBytesLE 8 ts) ++ toBytesLE 8 v)
            4 (t + 1)) 4 = t + 1 := by
          rw [read16_write16 (by omega)]
          omega
        unfold dbwInv
        refine ⟨rfl, ?_, ?_, Or.inr ?_⟩
        · show 6 ≤ (write16 _ 4 (t + 1)).length
          rw [hwlen]
          omega
        · show (write16 _ 4 (t + 1)).length ≤ w.stream.cap
          rw [hwlen]
          omega
        · show w.stream.cap - (write16 _ 4 (t + 1)).length +
            16 * read16 (write16 _ 4 (t + 1)) 4 ≤ 303
          rw [hwlen, hwr]
          rcases hdisj with h | h
          · omega
          · omega
      · rw [putRaw_fail (show ¬ (w.stream.data ++ toBytesLE 8 ts).length + 8 ≤ w.stream.cap
          from by simp only [List.length_append, toBytesLE_length]; omega)]
        simp only []
        have hr : read16 (w.stream.data ++ toBytesLE 8 ts) 4 = read16 w.stream.data 4 :=
          read16_append _ (by omega)
        unfold dbwInv
        refine ⟨hoff, ?_, ?_, ?_⟩
        · show 6 ≤ (w.stream.data ++ toBytesLE 8 ts).length
          simp only [List.length_append, toBytesLE_length]
          omega
        · show (w.stream.data ++ toBytesLE 8 ts).length ≤ w.stream.cap
          simp only [List.length_append, toBytesLE_length]
          omega
        · show read16 (w.stream.data ++ toBytesLE 8 ts) 4 = 0 ∨
            w.stream.cap - (w.stream.data ++ toBytesLE 8 ts).length +
              16 * read16 (w.stream.data ++ toBytesLE 8 ts) 4 ≤ 303
          rw [hr]
          rcases hdisj with h | h
          · exact Or.inl h
          · refine Or.inr ?_
            simp only [List.length_append, toBytesLE_length]
            omega
    · rw [putRaw_fail hg1]
      simp only []
      exact ⟨hoff, hlen, hcap, hdisj⟩

theorem dbwPutN_inv {w : DBW} (hw : dbwInv w) :
    ∀ l : List (Nat × Nat), dbwInv (dbwPutN w l).2 := by
  intro l
  induction l generalizing w with
  | nil => exact hw
  | cons p rest ih =>
      obtain ⟨t, v⟩ := p
      unfold dbwPutN
      exact ih (dbw_put_inv hw t v)

theorem dbw_init_inv {id cap : Nat} {w : DBW} (hc : 14 ≤ cap)
    (h : DataBlockWriter.init id cap = some w) : dbwInv w := by
  unfold DataBlockWriter.init at h
  simp only [] at h
  rw [putRaw_ok (show (⟨cap, []⟩ : BStream).data.length + 2 ≤ (⟨cap, []⟩ : BStream).cap
    from by simp; omega)] at h
  simp only [] at h
  rw [putRaw_ok (show ([] ++ toBytesLE 2 AKUMULI_VERSION).length + 2 ≤ cap
    from by simp [toBytesLE_length]; omega)] at h
  simp only [] at h
  rw [putRaw_ok (show (([] ++ toBytesLE 2 AKUMULI_VERSION) ++ toBytesLE 2 0).length + 2 ≤ cap
    from by simp [toBytesLE_length]; omega)] at h
  simp only [] at h
  rw [putRaw_ok (show ((([] ++ toBytesLE 2 AKUMULI_VERSION) ++ toBytesLE 2 0)
      ++ toBytesLE 2 0).length + 8 ≤ cap
    from by simp [toBytesLE_length]; omega)] at h
  rw [if_pos (show (true && true && true && true) = true from rfl)] at h
  have h2 := Option.some.inj h
  subst h2
  unfold dbwInv
  refine ⟨rfl, ?_, ?_, Or.inl ?_⟩
  · show 6 ≤ (((([] ++ toBytesLE 2 AKUMULI_VERSION) ++ toBytesLE 2 0)
      ++ toBytesLE 2 0) ++ toBytesLE 8 id).length
    simp [toBytesLE_length]
  · show (((([] ++ toBytesLE 2 AKUMULI_VERSION) ++ toBytesLE 2 0)
      ++ toBytesLE 2 0) ++ toBytesLE 8 id).length ≤ cap
    simp [toBytesLE_length]
    omega
  · show read16 (((([] ++ toBytesLE 2 AKUMULI_VERSION) ++ toBytesLE 2 0)
      ++ toBytesLE 2 0) ++ toBytesLE 8 id) 4 = 0
    rw [read16_append _ (by simp [toBytesLE_length])]
    decide

/-- A writer session: construct, then feed the samples in order. -/
def dbwRun (id cap : Nat) (samples : List (Nat × Nat)) :
    Option (List AkuStatus × DBW) :=
  (DataBlockWriter.init id cap).map (fun w => dbwPutN w samples)

/-- C1: decoding a block produced by encode_block with a destination slice
sized to the encoded count yields exactly the original timestamp and value
columns, bit for bit and in order. -/
theorem claim_C1 (id : Nat) (ts vals : List Nat) (cap : Nat)
    (hlen : ts.length = vals.length) (hn : ts.length < 2 ^ 32)
    (hid : id < U64) (hts : ∀ x ∈ ts, x < U64) (hvals : ∀ x ∈ vals, x < U64)
    (hcap : 44 + 31 * ts.length ≤ cap) :
    ∃ out, encode_block ⟨id, ts, vals, 0, ts.length⟩ cap = some out ∧
      out.count = ts.length ∧ out.status = AkuStatus.success ∧
      decode_block out.stream.data ⟨ts.length, 0⟩ =
        DecodeBlockResult.ok id ts vals ts.length := by
  obtain ⟨out, h1, h2, h3, _, h5⟩ :=
    encode_block_roundtrip id ts vals cap hlen hn hid hts hvals hcap
  exact ⟨out, h1, h2, h3, h5⟩

theorem claim_C1_witness :
    ∃ out, encode_block ⟨7, [1, 2], [0, 5], 0, 2⟩ 106 = some out ∧
      out.count = 2 ∧ out.status = AkuStatus.success ∧
      decode_block out.stream.data ⟨2, 0⟩ = DecodeBlockResult.ok 7 [1, 2] [0, 5] 2 :=
  claim_C1 7 [1, 2] [0, 5] 106 (by decide) (by decide) (by decide)
    (by decide) (by decide) (by decide)

set_option maxRecDepth 100000 in
/-- C2: sixteen puts into a roomy writer all succeed and flush one chunk,
yet the main-size field at header offset 2 still reads zero after close
while the field pointer has moved 32 bytes; the header totals 0, not the 16
successful puts, because pmain_size_ += CHUNK_SIZE advances the uint16
pointer instead of the pointed-to count. -/
theorem claim_C2 :
    (dbwRun 7 1000 ((List.range 16).map (fun i => (i, 0)))).map
      (fun r => (r.1, read16 (DataBlockWriter.close r.2).stream.data 2,
        read16 (DataBlockWriter.close r.2).stream.data 4,
        (DataBlockWriter.close r.2).pmain_off)) =
      some (List.replicate 16 AkuStatus.success, 0, 0, 34) ∧ (0 + 0 : Nat) ≠ 16 := by
  constructor
  · decide
  · decide

/-- C3: decompress_doubles applied to the stream compress_doubles wrote,
with the element count compress_doubles returned, reproduces every 64-bit
pattern of the input in order. -/
theorem claim_C3 (input : List Nat) (cap : Nat)
    (hx : ∀ x ∈ input, x < U64) (hcap : 9 * input.length + 10 ≤ cap) :
    decompress_doubles (compress_doubles input ⟨cap, []⟩).2
      (compress_doubles input ⟨cap, []⟩).1.data = input := by
  obtain ⟨B, h1, h2, h3⟩ := compress_doubles_roundtrip input ⟨cap, []⟩ hx
    (by simpa using hcap)
  rw [h1, h2]
  have h4 := h3 []
  rw [List.append_nil] at h4
  exact h4

theorem claim_C3_witness :
    decompress_doubles (compress_doubles [1, 2] ⟨100, []⟩).2
      (compress_doubles [1, 2] ⟨100, []⟩).1.data = [1, 2] :=
  claim_C3 [1, 2] 100 (by decide) (by decide)

/-- C4 (amended): for every put sequence on a writer whose buffer held the
14-byte header, the tail count recorded in the header stays strictly below
19, including after close; the bound 16 of the original claim is not an
invariant of the code. -/
theorem claim_C4 (id cap : Nat) (w0 : DBW) (l : List (Nat × Nat))
    (hcap : 14 ≤ cap) (h : DataBlockWriter.init id cap = some w0) :
    read16 (DataBlockWriter.close (dbwPutN w0 l).2).stream.data 4 < 19 := by
  obtain ⟨hoff, hlen, hcap2, hdisj⟩ := dbwPutN_inv (dbw_init_inv hcap h) l
  unfold DataBlockWriter.close
  rcases hdisj with h2 | h2
  · omega
  · omega

/-- Writer state right after a successful construction over 20 bytes. -/
def dbwW0 : DBW :=
  ⟨⟨20, [2, 0, 0, 0, 0, 0, 7, 0, 0, 0, 0, 0, 0, 0]⟩, DRW.start, FcmW.start, 0,
    fun _ => 0, fun _ => 0, 2, 4⟩

theorem claim_C4_witness :
    read16 (DataBlockWriter.close (dbwPutN dbwW0 [(1, 5), (2, 6)]).2).stream.data 4 < 19 :=
  claim_C4 7 20 dbwW0 [(1, 5), (2, 6)] (by decide) (by rfl)

set_option maxRecDepth 100000 in
/-- C4 counterexample: a 317-byte buffer leaves 303 bytes after the header,
under the 304-byte chunk margin, so every put lands in the tail; eighteen
puts all succeed and the header tail count reads 18, refuting tail < 16. -/
theorem claim_C4_cex :
    (dbwRun 7 317 ((List.range 18).map (fun i => (i, 0)))).map
      (fun r => (r.1, read16 (DataBlockWriter.close r.2).stream.data 4)) =
      some (List.replicate 18 AkuStatus.success, 18) ∧ ¬ (18 < 16) := by
  constructor
  · decide
  · decide

/-- C5 (amended): a buffer whose version field differs from
AKUMULI_VERSION makes decode_block raise the AKU_PANIC version-mismatch
abort, modelled as panicVersionMismatch, surfacing no decoded data. -/
theorem claim_C5 (buffer : List Nat) (dest : SliceDest)
    (h : (readBytes 2 buffer).1 ≠ AKUMULI_VERSION) :
    decode_block buffer dest = DecodeBlockResult.panicVersionMismatch := by
  unfold decode_block
  simp only []
  rw [if_pos h]

theorem claim_C5_witness :
    decode_block [0, 0, 0] ⟨0, 0⟩ = DecodeBlockResult.panicVersionMismatch :=
  claim_C5 [0, 0, 0] ⟨0, 0⟩ (by decide)

/-- C5 counterexample: a zero-filled buffer has version 0, and decode_block
panics on it instead of returning the bad-data status. -/
theorem claim_C5_cex :
    decode_block (List.replicate 20 0) ⟨0, 0⟩ = DecodeBlockResult.panicVersionMismatch ∧
    DecodeBlockResult.panicVersionMismatch ≠ DecodeBlockResult.err AkuStatus.eBadData := by
  constructor
  · decide
  · decide

/-- C6 (amended): a two-sample group written by the double codec occupies
1 + ((flag_a and 7) + 1) + ((flag_b and 7) + 1) bytes, between 3 and 17
inclusive: one control byte and one payload of (flag and 7) + 1 bytes per
sample, not the 4..18 of the original claim. -/
theorem claim_C6 (s : BStream) (w : FcmW) (v : Nat)
    (hodd : w.nelements % 2 = 1) (hroom : s.data.length + 17 ≤ s.cap) :
    ∃ B, FcmStreamWriter.put s w v = (⟨s.cap, s.data ++ B⟩,
        ⟨w.predictor.update v, w.prev_diff, w.prev_flag, w.nelements + 1⟩, true) ∧
      B.length = 1 + ((w.prev_flag &&& 7) + 1) +
        ((fcmFlag (v ^^^ w.predictor.predict_next) &&& 7) + 1) ∧
      3 ≤ B.length ∧ B.length ≤ 17 := by
  rw [fcm_put_odd_ok hodd hroom]
  have h1 : w.prev_flag &&& 7 ≤ 7 := Nat.and_le_right
  have h2 : fcmFlag (v ^^^ w.predictor.predict_next) &&& 7 ≤ 7 := Nat.and_le_right
  refine ⟨_, rfl, ?_, ?_, ?_⟩
  · simp only [List.length_append, toBytesLE_length, encValBytes_length,
      flagBytesLen_eq, and_7_mod]
  · simp only [List.length_append, toBytesLE_length, encValBytes_length,
      flagBytesLen_eq, and_7_mod]
    omega
  · simp only [List.length_append, toBytesLE_length, encValBytes_length,
      flagBytesLen_eq, and_7_mod]
    omega

theorem claim_C6_witness :
    ∃ B, FcmStreamWriter.put ⟨20, ([] : List Nat)⟩ ⟨FcmPredictor.start, 0, 0, 1⟩ 0 =
        (⟨20, [] ++ B⟩, ⟨FcmPredictor.start.update 0, 0, 0, 2⟩, true) ∧
      B.length = 1 + ((0 &&& 7) + 1) +
        ((fcmFlag (0 ^^^ FcmPredictor.start.predict_next) &&& 7) + 1) ∧
      3 ≤ B.length ∧ B.length ≤ 17 :=
  claim_C6 ⟨20, []⟩ ⟨FcmPredictor.start, 0, 0, 1⟩ 0 (by rfl) (by decide)

/-- C6 counterexample: the pair of two zero samples compresses to 3 bytes,
below the 4-byte minimum the original claim derives. -/
theorem claim_C6_cex :
    (compress_doubles [0, 0] ⟨100, []⟩).1.data.length = 3 ∧ ¬ (4 ≤ 3) := by
  constructor
  · decide
  · decide

/-- C7: both converts succeed on equal-length columns, permute by the
mergeSort-stable index order of their key, and two positions with equal
keys keep their input order in that index permutation. -/
theorem claim_C7 (header out : UncompressedChunk) (i j : Nat)
    (hlv : header.timestamps.length = header.values.length)
    (hlp : header.timestamps.length = header.paramids.length)
    (hij : i < j) (hj : j < header.timestamps.length) :
    ((convert_from_chunk_order header out).1 = true ∧
      (convert_from_time_order header out).1 = true) ∧
    (header.timestamps.getD i 0 = header.timestamps.getD j 0 →
      List.Sublist [i, j] ((List.range header.timestamps.length).mergeSort
        (fun a b => ! decide (header.timestamps.getD b 0 < header.timestamps.getD a 0)))) ∧
    (header.paramids.getD i 0 = header.paramids.getD j 0 →
      List.Sublist [i, j] ((List.range header.timestamps.length).mergeSort
        (fun a b => ! decide (header.paramids.getD b 0 < header.paramids.getD a 0)))) ∧
    (convert_from_chunk_order header out).2.timestamps =
      out.timestamps ++ ((List.range header.timestamps.length).mergeSort
        (fun a b => ! decide (header.timestamps.getD b 0 < header.timestamps.getD a 0))).map
        (fun ix => header.timestamps.getD ix 0) ∧
    (convert_from_time_order header out).2.paramids =
      out.paramids ++ ((List.range header.timestamps.length).mergeSort
        (fun a b => ! decide (header.paramids.getD b 0 < header.paramids.getD a 0))).map
        (fun ix => header.paramids.getD ix 0) := by
  have hcond : ¬ (header.timestamps.length ≠ header.values.length ∨
      header.timestamps.length ≠ header.paramids.length) := by omega
  refine ⟨⟨?_, ?_⟩, ?_, ?_, ?_, ?_⟩
  · unfold convert_from_chunk_order reorder_chunk_header
    simp only []
    rw [if_neg hcond]
  · unfold convert_from_time_order reorder_chunk_header
    simp only []
    rw [if_neg hcond]
  · intro heq
    exact stable_pair_mergeSort_idx (fun ix => header.timestamps.getD ix 0) _ i j hij hj heq
  · intro heq
    exact stable_pair_mergeSort_idx (fun ix => header.paramids.getD ix 0) _ i j hij hj heq
  · unfold convert_from_chunk_order reorder_chunk_header
    simp only []
    rw [if_neg hcond]
  · unfold convert_from_time_order reorder_chunk_header
    simp only []
    rw [if_neg hcond]

theorem claim_C7_witness :
    ((convert_from_chunk_order ⟨[2, 1, 2, 1], [10, 10, 11, 11], [1, 2, 3, 4]⟩
        ⟨[], [], []⟩).1 = true ∧
      (convert_from_time_order ⟨[2, 1, 2, 1], [10, 10, 11, 11], [1, 2, 3, 4]⟩
        ⟨[], [], []⟩).1 = true) ∧
    (([10, 10, 11, 11] : List Nat).getD 0 0 = ([10, 10, 11, 11] : List Nat).getD 1 0 →
      List.Sublist [0, 1] ((List.range 4).mergeSort
        (fun a b => ! decide (([10, 10, 11, 11] : List Nat).getD b 0 <
          ([10, 10, 11, 11] : List Nat).getD a 0)))) ∧
    (([2, 1, 2, 1] : List Nat).getD 0 0 = ([2, 1, 2, 1] : List Nat).getD 1 0 →
      List.Sublist [0, 1] ((List.range 4).mergeSort
        (fun a b => ! decide (([2, 1, 2, 1] : List Nat).getD b 0 <
          ([2, 1, 2, 1] : List Nat).getD a 0)))) ∧
    (convert_from_chunk_order ⟨[2, 1, 2, 1], [10, 10, 11, 11], [1, 2, 3, 4]⟩
        ⟨[], [], []⟩).2.timestamps =
      [] ++ ((List.range 4).mergeSort
        (fun a b => ! decide (([10, 10, 11, 11] : List Nat).getD b 0 <
          ([10, 10, 11, 11] : List Nat).getD a 0))).map
        (fun ix => ([10, 10, 11, 11] : List Nat).getD ix 0) ∧
    (convert_from_time_order ⟨[2, 1, 2, 1], [10, 10, 11, 11], [1, 2, 3, 4]⟩
        ⟨[], [], []⟩).2.paramids =
      [] ++ ((List.range 4).mergeSort
        (fun a b => ! decide (([2, 1, 2, 1] : List Nat).getD b 0 <
          ([2, 1, 2, 1] : List Nat).getD a 0))).map
        (fun ix => ([2, 1, 2, 1] : List Nat).getD ix 0) :=
  claim_C7 ⟨[2, 1, 2, 1], [10, 10, 11, 11], [1, 2, 3, 4]⟩ ⟨[], [], []⟩ 0 1
    (by decide) (by decide) (by decide) (by decide)

/-- C8: on a chunk with a non-empty timestamps column, encode_chunk reports
ts_begin as the minimum and ts_end as the maximum of the timestamps. -/
theorem claim_C8 (data : UncompressedChunk) (s : BStream)
    (hne : data.timestamps ≠ []) (hb : ∀ x ∈ data.timestamps, x < U64) :
    ((encode_chunk data s).2.1 ∈ data.timestamps ∧
      ∀ x ∈ data.timestamps, (encode_chunk data s).2.1 ≤ x) ∧
    ((encode_chunk data s).2.2.1 ∈ data.timestamps ∧
      ∀ x ∈ data.timestamps, x ≤ (encode_chunk data s).2.2.1) := by
  have hmin : (encode_chunk data s).2.1 =
      data.timestamps.foldl min AKU_MAX_TIMESTAMP := by
    unfold encode_chunk
    simp only []
    rw [tsPutAll_minmax]
  have hmax : (encode_chunk data s).2.2.1 =
      data.timestamps.foldl max AKU_MIN_TIMESTAMP := by
    unfold encode_chunk
    simp only []
    rw [tsPutAll_minmax]
  rw [hmin, hmax]
  obtain ⟨y, hy⟩ := List.exists_mem_of_ne_nil data.timestamps hne
  refine ⟨⟨?_, fun x hx => foldl_min_le _ _ x hx⟩,
    ⟨?_, fun x hx => foldl_max_ge _ _ x hx⟩⟩
  · rcases foldl_min_mem data.timestamps AKU_MAX_TIMESTAMP hne with h | h
    · exact h
    · have hle := foldl_min_le data.timestamps AKU_MAX_TIMESTAMP y hy
      have hyb := hb y hy
      have hAM : AKU_MAX_TIMESTAMP = U64 - 1 := rfl
      have hfe : data.timestamps.foldl min AKU_MAX_TIMESTAMP = y := by omega
      rw [hfe]
      exact hy
  · rcases foldl_max_mem data.timestamps AKU_MIN_TIMESTAMP hne with h | h
    · exact h
    · have hge := foldl_max_ge data.timestamps AKU_MIN_TIMESTAMP y hy
      have hA0 : AKU_MIN_TIMESTAMP = 0 := rfl
      have hfe : data.timestamps.foldl max AKU_MIN_TIMESTAMP = y := by omega
      rw [hfe]
      exact hy

theorem claim_C8_witness :
    ((encode_chunk ⟨[1], [5], [9]⟩ ⟨100, []⟩).2.1 ∈ ([5] : List Nat) ∧
      ∀ x ∈ ([5] : List Nat), (encode_chunk ⟨[1], [5], [9]⟩ ⟨100, []⟩).2.1 ≤ x) ∧
    ((encode_chunk ⟨[1], [5], [9]⟩ ⟨100, []⟩).2.2.1 ∈ ([5] : List Nat) ∧
      ∀ x ∈ ([5] : List Nat), x ≤ (encode_chunk ⟨[1], [5], [9]⟩ ⟨100, []⟩).2.2.1) :=
  claim_C8 ⟨[1], [5], [9]⟩ ⟨100, []⟩ (by decide) (by decide)

/-- C9 (amended): encode_block returns success for every slice once the
14-byte header fits, stores in the element-count field the count it
accumulated, batches plus the whole tail size when both tail commits
succeed, and advances the slice offset by exactly that accumulated count;
exhaustion is never an error status, but the stored count can exceed the
samples the value stream actually holds. -/
theorem claim_C9 (slice : SeriesSlice) (cap : Nat) (h : 14 ≤ cap) :
    ∃ out c, encode_block slice cap = some out ∧
      out.status = AkuStatus.success ∧ out.count = c % 2 ^ 32 ∧
      out.slice.offset = slice.offset + c := by
  unfold encode_block
  rw [if_neg (by omega)]
  exact ⟨_, _, rfl, rfl, rfl, rfl⟩

theorem claim_C9_witness :
    ∃ out c, encode_block ⟨1, [], [], 0, 0⟩ 14 = some out ∧
      out.status = AkuStatus.success ∧ out.count = c % 2 ^ 32 ∧
      out.slice.offset = 0 + c :=
  claim_C9 ⟨1, [], [], 0, 0⟩ 14 (by decide)

set_option maxRecDepth 100000 in
/-- C9 counterexample: with 21 bytes of room, two samples whose second
value needs a 9-byte pair, encode_block still reports success with count 2
and offset 2, yet decoding the produced block does not return the two
samples: the count overstates what was successfully encoded. -/
theorem claim_C9_cex :
    (encode_block ⟨7, [1, 2], [0, 72057594037927937], 0, 2⟩ 21).map
      (fun o => (o.count, o.status, o.slice.offset)) = some (2, AkuStatus.success, 2) ∧
    (encode_block ⟨7, [1, 2], [0, 72057594037927937], 0, 2⟩ 21).map
      (fun o => decode_block o.stream.data ⟨2, 0⟩) ≠
      some (DecodeBlockResult.ok 7 [1, 2] [0, 72057594037927937] 2) := by
  constructor
  · decide
  · decide

/-- C10: columns of unequal length make both converts return false with
the output chunk exactly as it was. -/
theorem claim_C10 (header out : UncompressedChunk)
    (h : ¬ (header.timestamps.length = header.values.length ∧
        header.timestamps.length = header.paramids.length)) :
    convert_from_chunk_order header out = (false, out) ∧
    convert_from_time_order header out = (false, out) := by
  have hcond : header.timestamps.length ≠ header.values.length ∨
      header.timestamps.length ≠ header.paramids.length := by
    by_cases h1 : header.timestamps.length = header.values.length
    · right
      intro h2
      exact h ⟨h1, h2⟩
    · left
      exact h1
  constructor
  · unfold convert_from_chunk_order reorder_chunk_header
    simp only []
    rw [if_pos hcond]
  · unfold convert_from_time_order reorder_chunk_header
    simp only []
    rw [if_pos hcond]

theorem claim_C10_witness :
    convert_from_chunk_order ⟨[1], [2, 3], [4]⟩ ⟨[9], [8], [7]⟩ =
      (false, ⟨[9], [8], [7]⟩) ∧
    convert_from_time_order ⟨[1], [2, 3], [4]⟩ ⟨[9], [8], [7]⟩ =
      (false, ⟨[9], [8], [7]⟩) :=
  claim_C10 ⟨[1], [2, 3], [4]⟩ ⟨[9], [8], [7]⟩ (by decide)

end Aku
